import Mathlib

/-!
Verification of the gtn WFST core (`src/gtn/functions.cpp`) against its
specification.  The graph data model (class `Graph`, declared in
`functions.h`, which is not part of the sources here) is modelled from the
spec, sections 3 and 4.1; every algorithm below is translated directly from
`functions.cpp`.  Weights are kept polymorphic in `W`: the C++ `float`
arithmetic used by the algorithms is only addition/negation, embedded as
exact arithmetic; the transcendental `logadd`/`exp` parts are embedded over
`ℝ` with `-∞` represented by `none : Option ℝ` (matching the `neginf`
sentinel of the C++ code).
-/

namespace Gtn

/-- Modelled from the spec (section 3): an arc has a source node `upNode`, a
destination `downNode`, integer input/output labels and a weight. -/
structure Arc (W : Type) where
  upNode : Nat
  downNode : Nat
  ilabel : Int
  olabel : Int
  weight : W
deriving DecidableEq, Repr

/-- Modelled from the spec (section 3): a node carries a `start` and an
`accept` flag. -/
structure NodeInfo where
  start : Bool
  accept : Bool
deriving DecidableEq, Repr

/-- Modelled from the spec (section 3): a graph is a list of nodes and a list
of arcs, both indexed in insertion order. -/
structure Graph (W : Type) where
  nodes : List NodeInfo
  arcs : List (Arc W)
deriving DecidableEq, Repr

variable {W : Type}

def Graph.emptyGraph : Graph W := ⟨[], []⟩

def Graph.numNodes (g : Graph W) : Nat := g.nodes.length

def Graph.numArcs (g : Graph W) : Nat := g.arcs.length

/-- Modelled from the spec (section 4.1): `start(n)`. -/
def Graph.start (g : Graph W) (n : Nat) : Bool := (g.nodes.getD n ⟨false, false⟩).start

/-- Modelled from the spec (section 4.1): `accept(n)`. -/
def Graph.accept (g : Graph W) (n : Nat) : Bool := (g.nodes.getD n ⟨false, false⟩).accept

/-- Arc lookup with an all-zero default (accessors are only ever used at
in-range indices by the algorithms). -/
def Graph.arcD [Zero W] (g : Graph W) (a : Nat) : Arc W := g.arcs.getD a ⟨0, 0, 0, 0, 0⟩

def Graph.upNode [Zero W] (g : Graph W) (a : Nat) : Nat := (g.arcD a).upNode

def Graph.downNode [Zero W] (g : Graph W) (a : Nat) : Nat := (g.arcD a).downNode

def Graph.ilabel [Zero W] (g : Graph W) (a : Nat) : Int := (g.arcD a).ilabel

def Graph.olabel [Zero W] (g : Graph W) (a : Nat) : Int := (g.arcD a).olabel

def Graph.weight [Zero W] (g : Graph W) (a : Nat) : W := (g.arcD a).weight

/-- Modelled from the spec (section 3): the ordered list of start nodes; for
graphs built by `addNode` the insertion order is the index order. -/
def Graph.startIds (g : Graph W) : List Nat :=
  (List.range g.numNodes).filter (fun n => g.start n)

/-- Modelled from the spec (section 3): the ordered list of accept nodes. -/
def Graph.acceptIds (g : Graph W) : List Nat :=
  (List.range g.numNodes).filter (fun n => g.accept n)

/-- Modelled from the spec (section 3): `in(n)`, the arc indices entering `n`
in insertion order. -/
def Graph.inArcs [Zero W] (g : Graph W) (n : Nat) : List Nat :=
  (List.range g.numArcs).filter (fun a => g.downNode a = n)

/-- Modelled from the spec (section 3): `out(n)`, the arc indices leaving `n`
in insertion order. -/
def Graph.outArcs [Zero W] (g : Graph W) (n : Nat) : List Nat :=
  (List.range g.numArcs).filter (fun a => g.upNode a = n)

def Graph.numIn [Zero W] (g : Graph W) (n : Nat) : Nat := (g.inArcs n).length

def Graph.numOut [Zero W] (g : Graph W) (n : Nat) : Nat := (g.outArcs n).length

/-- Modelled from the spec (section 4.1): `addNode` appends a node. -/
def Graph.addNode (g : Graph W) (s acc : Bool) : Graph W :=
  { g with nodes := g.nodes ++ [⟨s, acc⟩] }

/-- Modelled from the spec (section 4.1): `addArc` appends an arc. -/
def Graph.addArc (g : Graph W) (up down : Nat) (il ol : Int) (w : W) : Graph W :=
  { g with arcs := g.arcs ++ [⟨up, down, il, ol, w⟩] }

/-- Modelled from the spec (section 4.1): `makeAccept(n)` sets the accept flag
of node `n`. -/
def Graph.makeAccept (g : Graph W) (n : Nat) : Graph W :=
  { g with nodes := g.nodes.set n ⟨g.start n, true⟩ }

/-- Modelled from the spec (sections 3 and 4.1): `item()` returns the single
arc weight of an item graph (two nodes, start `0`, accept `1`, one arc
`0 → 1` with labels `0/0`) and fails otherwise. -/
def Graph.item (g : Graph W) : Option W :=
  match g.nodes, g.arcs with
  | [⟨true, false⟩, ⟨false, true⟩], [⟨0, 1, 0, 0, w⟩] => some w
  | _, _ => none

/-- The gradient vector a graph-valued `addGrad` accumulates: the arc weights
in order (modelled from the spec, section 3, gradient accumulator). -/
def Graph.gradWeights (g : Graph W) : List W := g.arcs.map Arc.weight

/-- Well-formed graph: every arc endpoint is a node index. -/
def Graph.WF [Zero W] (g : Graph W) : Prop :=
  ∀ a < g.numArcs, g.upNode a < g.numNodes ∧ g.downNode a < g.numNodes

instance [Zero W] (g : Graph W) : Decidable (g.WF) := by
  unfold Graph.WF; infer_instance

/-! ### Paths

A path is a start node together with a list of arc indices whose endpoints
chain together.  These notions are used to state the path-level claims about
`compose` and `forward`. -/

/-- A path in `g` from node `s` to node `t` along the listed arc indices. -/
def Graph.pathOk [Zero W] (g : Graph W) : Nat → List Nat → Nat → Prop
  | s, [], t => s = t
  | s, a :: p, t => a < g.numArcs ∧ g.upNode a = s ∧ g.pathOk (g.downNode a) p t

instance Graph.pathOkDecidable [Zero W] (g : Graph W) :
    ∀ (s : Nat) (p : List Nat) (t : Nat), Decidable (g.pathOk s p t)
  | s, [], t => inferInstanceAs (Decidable (s = t))
  | s, a :: p, t =>
    have : Decidable (g.pathOk (g.downNode a) p t) := g.pathOkDecidable _ p t
    inferInstanceAs (Decidable (_ ∧ _ ∧ _))

/-- Acyclicity: no nonempty path from a node back to itself. -/
def Graph.Acyclic [Zero W] (g : Graph W) : Prop :=
  ∀ (n : Nat) (p : List Nat), p ≠ [] → g.pathOk n p n → False

/-- The node sequence visited by a path. -/
def Graph.pathNodes [Zero W] (g : Graph W) (s : Nat) (p : List Nat) : List Nat :=
  s :: p.map g.downNode

/-- Path weight: the sum of the arc weights along the path. -/
def Graph.pathWeight [Zero W] [Add W] (g : Graph W) (p : List Nat) : W :=
  (p.map g.weight).sum

/-! ### Path enumeration

`pathsTo fuel t` lists every pair `(s, p)` such that `s` is a start node and
`p` is a path from `s` to `t` of length `< fuel`; each such path occurs
exactly once.  With `fuel = numNodes`, in a well-formed acyclic graph this is
the complete list of start-to-`t` paths. -/

def Graph.pathsTo [Zero W] (g : Graph W) : Nat → Nat → List (Nat × List Nat)
  | 0, _ => []
  | fuel+1, t =>
    (if g.start t then [(t, ([] : List Nat))] else []) ++
      (g.inArcs t).flatMap fun a =>
        (g.pathsTo fuel (g.upNode a)).map fun sp => (sp.1, sp.2 ++ [a])

/-! ### logadd (functions.cpp lines 415-425)

The C++ `neginf` sentinel (`-std::numeric_limits<float>::infinity()`) is
embedded as `none : Option ℝ`; finite floats are embedded as reals. -/

/-- `logadd` from functions.cpp: returns `b` if `a` is `-∞`, `a` if `b` is
`-∞`, and otherwise `max(a,b) + log1p(exp(-|a-b|))`. -/
noncomputable def logadd : Option ℝ → Option ℝ → Option ℝ
  | none, b => b
  | some x, none => some x
  | some x, some y => some (max x y + Real.log (1 + Real.exp (-|x - y|)))

/-- `exp` extended by `exp(-∞) = 0`: the bridge between log-space scores and
sums of exponentiated path weights. -/
noncomputable def expO : Option ℝ → ℝ
  | none => 0
  | some x => Real.exp x

/-! ### Item algebra (functions.cpp lines 11-46)

The C++ functions throw when `item()` is called on a non-item graph; the
embeddings return `none` in that case. -/

/-- `negate` from functions.cpp: an item graph with weight `-other.item()`. -/
def negate [Zero W] [Neg W] (other : Graph W) : Option (Graph W) :=
  other.item.map fun x =>
    ((Graph.emptyGraph.addNode true false).addNode false true).addArc 0 1 0 0 (-x)

/-- `add` from functions.cpp: an item graph with weight
`lhs.item() + rhs.item()`. -/
def add [Zero W] [Add W] (lhs rhs : Graph W) : Option (Graph W) :=
  match lhs.item, rhs.item with
  | some x, some y =>
    some (((Graph.emptyGraph.addNode true false).addNode false true).addArc 0 1 0 0 (x + y))
  | _, _ => none

/-- `subtract` from functions.cpp: an item graph with weight
`lhs.item() - rhs.item()`. -/
def subtract [Zero W] [Sub W] (lhs rhs : Graph W) : Option (Graph W) :=
  match lhs.item, rhs.item with
  | some x, some y =>
    some (((Graph.emptyGraph.addNode true false).addNode false true).addArc 0 1 0 0 (x - y))
  | _, _ => none

/-- The backward closure of `subtract` (functions.cpp lines 37-40):
`inputs[0].addGrad(deltas)` and `inputs[1].addGrad(negate(deltas))`; the two
accumulated gradient vectors are the arc weights of `deltas` and of
`negate(deltas)`. -/
def subtractGrad [Zero W] [Neg W] (deltas : Graph W) : Option (List W × List W) :=
  (negate deltas).map fun nd => (deltas.gradWeights, nd.gradWeights)

/-! ### Closure (functions.cpp lines 75-111) -/

/-- `closure` from functions.cpp: node `0` is a fresh start-and-accept node,
the original nodes follow shifted by one, the original arcs are re-emitted
with shifted endpoints, then an epsilon arc from `0` to every old start and
from every old accept to every old start (the three-argument C++ `addArc`
defaults, modelled from the spec: labels `0/0`, weight `0`). -/
def closure [Zero W] (graph : Graph W) : Graph W :=
  let closed := Graph.emptyGraph.addNode true true
  let closed := (List.range graph.numNodes).foldl
    (fun c n => c.addNode false (graph.accept n)) closed
  let closed := (List.range graph.numArcs).foldl
    (fun c a => c.addArc (graph.upNode a + 1) (graph.downNode a + 1)
      (graph.ilabel a) (graph.olabel a) (graph.weight a)) closed
  graph.startIds.foldl
    (fun c s =>
      graph.acceptIds.foldl (fun c a => c.addArc (a + 1) (s + 1) 0 0 0)
        (c.addArc 0 (s + 1) 0 0 0))
    closed

/-- The backward closure stored by `closure` (functions.cpp lines 76-86):
under `calcGrad`, the gradient for the input is `deltas.weight(i)` at arc
indices `i < numArcs`. -/
def closureGrad [Zero W] (graph deltas : Graph W) : List W :=
  (List.range graph.numArcs).map fun i => deltas.weight i

/-! ### remove (functions.cpp lines 150-212)

The BFS over matching arcs is embedded with explicit fuel; every original
node enters `reachable` at most once (the push is guarded by the
`reachable.count` check), so `numNodes` pops always suffice. -/

/-- One reachability walk of `remove` (the `while (!toExplore.empty())` loop):
from the kept node `n` (with result-node index `curr`), walk matching arcs,
making `curr` accepting when an accepting original node is reached, and
emitting each non-matching out-arc `a` as an arc `n → nodes[downNode a]` with
the original labels and zero weight.  Note the C++ uses the original index
`n`, not `nodes[n]`, as the source. -/
def removeWalk [Zero W] (other : Graph W) (ilabel olabel : Int) (nodes : List Int)
    (n curr : Nat) : Nat → Graph W → List Nat → List Nat → Graph W
  | 0, graph, _, _ => graph
  | fuel+1, graph, queue, reachable =>
    match queue with
    | [] => graph
    | next :: rest =>
      let graph1 := if other.accept next then graph.makeAccept curr else graph
      let st := (other.outArcs next).foldl
        (fun (st : Graph W × List Nat × List Nat) a =>
          let dn := other.downNode a
          if (other.ilabel a == ilabel) && (other.olabel a == olabel) then
            if dn ∈ st.2.2 then st
            else (st.1, st.2.1 ++ [dn], st.2.2 ++ [dn])
          else
            (st.1.addArc n (nodes.getD dn 0).toNat (other.ilabel a) (other.olabel a) 0,
              st.2.1, st.2.2))
        (graph1, rest, reachable)
      removeWalk other ilabel olabel nodes n curr fuel st.1 st.2.1 st.2.2

/-- `remove(other, ilabel, olabel)` from functions.cpp: drop arcs whose label
pair matches, keep a node iff it is a start node or has a non-matching
incoming arc, then run one matching-arc reachability walk per kept node. -/
def remove [Zero W] (other : Graph W) (ilabel olabel : Int) : Graph W :=
  let init := (List.range other.numNodes).foldl
    (fun (st : List Int × Graph W) n =>
      if other.start n || !((other.inArcs n).all fun a =>
          (other.ilabel a == ilabel) && (other.olabel a == olabel)) then
        (st.1 ++ [(st.2.numNodes : Int)], st.2.addNode (other.start n) false)
      else (st.1 ++ [(-1 : Int)], st.2))
    ([], Graph.emptyGraph)
  (List.range other.numNodes).foldl
    (fun graph n =>
      let curr := init.1.getD n 0
      if 0 ≤ curr then
        removeWalk other ilabel olabel init.1 n curr.toNat other.numNodes graph [n] [n]
      else graph)
    init.2

/-! ### Composition (functions.cpp lines 214-413)

Pass 1 (`findReachable`) walks in-arcs upstream from every accept pair,
with paired steps and — only when no epsilon pair matched at the current
state — single-sided epsilon steps.  Pass 2 (`compose`) walks out-arcs
downstream from the start pairs, emitting paired arcs and single-sided
epsilon arcs (with no `epsilon_matched` guard, exactly as in the source).
Every state pair enters a queue at most once, so `numNodes·numNodes` pops
suffice for both passes. -/

/-- `toIndex(n1, n2, g)` from functions.cpp. -/
def toIndex (n1 n2 : Nat) (g : Graph W) : Nat := n1 + g.numNodes * n2

/-- The `while` loop of `findReachable` (functions.cpp lines 230-279). -/
def findReachableLoop [Zero W] (first second : Graph W) :
    Nat → List Bool → List (Nat × Nat) → List Bool
  | 0, reachable, _ => reachable
  | fuel+1, reachable, queue =>
    match queue with
    | [] => reachable
    | curr :: rest =>
      let st1 := (first.inArcs curr.1).foldl
        (fun st i =>
          (second.inArcs curr.2).foldl
            (fun (st : Bool × List Bool × List (Nat × Nat)) j =>
              if first.olabel i = second.ilabel j then
                let em := st.1 || decide (first.olabel i = 0)
                let un1 := first.upNode i
                let un2 := second.upNode j
                let idx := toIndex un1 un2 first
                let q := if st.2.1.getD idx false then st.2.2 else st.2.2 ++ [(un1, un2)]
                (em, st.2.1.set idx true, q)
              else st)
            st)
        (false, reachable, rest)
      let st2 :=
        if st1.1 then st1.2
        else (first.inArcs curr.1).foldl
          (fun (st : List Bool × List (Nat × Nat)) i =>
            if first.olabel i = 0 then
              let un1 := first.upNode i
              let idx := toIndex un1 curr.2 first
              let q := if st.1.getD idx false then st.2 else st.2 ++ [(un1, curr.2)]
              (st.1.set idx true, q)
            else st)
          st1.2
      let st3 :=
        if st1.1 then st2
        else (second.inArcs curr.2).foldl
          (fun (st : List Bool × List (Nat × Nat)) j =>
            if second.ilabel j = 0 then
              let un2 := second.upNode j
              let idx := toIndex curr.1 un2 first
              let q := if st.1.getD idx false then st.2 else st.2 ++ [(curr.1, un2)]
              (st.1.set idx true, q)
            else st)
          st2
      findReachableLoop first second fuel st3.1 st3.2

/-- `findReachable` from functions.cpp: which product states can reach an
accept pair, seeded at all accept pairs. -/
def findReachable [Zero W] (first second : Graph W) : List Bool :=
  let init := first.acceptIds.foldl
    (fun (st : List Bool × List (Nat × Nat)) f =>
      second.acceptIds.foldl
        (fun st s => (st.1.set (toIndex f s first) true, st.2 ++ [(f, s)]))
        st)
    (List.replicate (first.numNodes * second.numNodes) false, [])
  findReachableLoop first second (first.numNodes * second.numNodes) init.1 init.2

/-- The construction state of pass 2: the graph built so far, the
`newNodes` table (product-state index to new node index, `-1` when not yet
materialised), the BFS queue, and the per-arc provenance list. -/
structure CState (W : Type) where
  ngraph : Graph W
  newNodes : List Int
  queue : List (Nat × Nat)
  gradInfo : List (Int × Int)

/-- One arc-emission block of pass 2 (shared by the paired step and the two
single-sided epsilon steps of functions.cpp lines 308-380): skip if the
destination pair cannot reach an accept pair, materialise the destination
node if needed, then add the arc and record its provenance. -/
def composeVisit [Zero W] (first second : Graph W) (reachable : List Bool)
    (currNode dn1 dn2 : Nat) (il ol : Int) (w : W) (prov : Int × Int)
    (st : CState W) : CState W :=
  let idx := toIndex dn1 dn2 first
  if reachable.getD idx false then
    let st' :=
      if st.newNodes.getD idx 0 < 0 then
        { ngraph := st.ngraph.addNode (first.start dn1 && second.start dn2)
            (first.accept dn1 && second.accept dn2),
          newNodes := st.newNodes.set idx (st.ngraph.numNodes : Int),
          queue := st.queue ++ [(dn1, dn2)],
          gradInfo := st.gradInfo }
      else st
    { st' with
      ngraph := st'.ngraph.addArc currNode (st'.newNodes.getD idx 0).toNat il ol w,
      gradInfo := st'.gradInfo ++ [prov] }
  else st

/-- The `while` loop of `compose` (functions.cpp lines 303-381). -/
def composeLoop [Zero W] [Add W] (first second : Graph W) (reachable : List Bool) :
    Nat → CState W → CState W
  | 0, st => st
  | fuel+1, st =>
    match st.queue with
    | [] => st
    | curr :: rest =>
      let currNode := (st.newNodes.getD (toIndex curr.1 curr.2 first) 0).toNat
      let st1 := (first.outArcs curr.1).foldl
        (fun st i =>
          (second.outArcs curr.2).foldl
            (fun st j =>
              if first.olabel i = second.ilabel j then
                composeVisit first second reachable currNode
                  (first.downNode i) (second.downNode j)
                  (first.ilabel i) (second.olabel j)
                  (first.weight i + second.weight j) ((i : Int), (j : Int)) st
              else st)
            st)
        { st with queue := rest }
      let st2 := (first.outArcs curr.1).foldl
        (fun st i =>
          if first.olabel i = 0 then
            composeVisit first second reachable currNode
              (first.downNode i) curr.2 (first.ilabel i) 0 (first.weight i)
              ((i : Int), -1) st
          else st)
        st1
      let st3 := (second.outArcs curr.2).foldl
        (fun st j =>
          if second.ilabel j = 0 then
            composeVisit first second reachable currNode
              curr.1 (second.downNode j) 0 (second.olabel j) (second.weight j)
              (-1, (j : Int)) st
          else st)
        st2
      composeLoop first second reachable fuel st3

/-- `compose` from functions.cpp: the composed graph together with the
provenance list captured by its backward closure. -/
def compose [Zero W] [Add W] (first second : Graph W) : Graph W × List (Int × Int) :=
  let reachable := findReachable first second
  let init := first.startIds.foldl
    (fun (st : CState W) s1 =>
      second.startIds.foldl
        (fun st s2 =>
          let idx := toIndex s1 s2 first
          if reachable.getD idx false then
            { ngraph := st.ngraph.addNode true (first.accept s1 && second.accept s2),
              newNodes := st.newNodes.set idx (st.ngraph.numNodes : Int),
              queue := st.queue ++ [(s1, s2)],
              gradInfo := st.gradInfo }
          else st)
        st)
    ⟨Graph.emptyGraph, List.replicate (first.numNodes * second.numNodes) (-1), [], []⟩
  let fin := composeLoop first second reachable (first.numNodes * second.numNodes) init
  (fin.ngraph, fin.gradInfo)

/-- Epsilon elision: drop the label-0 entries of a label sequence. -/
def elide (l : List Int) : List Int := l.filter (fun x => x != 0)

def Graph.pathIlabels [Zero W] (g : Graph W) (p : List Nat) : List Int := p.map g.ilabel

def Graph.pathOlabels [Zero W] (g : Graph W) (p : List Nat) : List Int := p.map g.olabel

/-- A start-to-accept path. -/
def Graph.acceptPath [Zero W] (g : Graph W) (s : Nat) (p : List Nat) : Prop :=
  g.start s = true ∧ ∃ t, g.pathOk s p t ∧ g.accept t = true

/-- The first counterexample input pair for composition:
`A = (0 start → 1 accept, labels (0,0), weight 1)`,
`B = (0 start → 1 start-and-accept, labels (0,1), weight 1)`. -/
def cexA : Graph ℤ := ⟨[⟨true, false⟩, ⟨false, true⟩], [⟨0, 1, 0, 0, 1⟩]⟩

def cexB : Graph ℤ := ⟨[⟨true, false⟩, ⟨true, true⟩], [⟨0, 1, 0, 1, 1⟩]⟩

/-- What `compose cexA cexB` evaluates to. -/
def cexC : Graph ℤ := ⟨[⟨true, false⟩, ⟨false, true⟩], [⟨0, 1, 0, 1, 2⟩]⟩

/-- The second counterexample input pair for composition:
`A = (0 start → 1 accept, labels (0,0), weight 1)`,
`B = (0 start-and-accept → 1 accept, labels (0,0), weight 1)`. -/
def cex2A : Graph ℤ := ⟨[⟨true, false⟩, ⟨false, true⟩], [⟨0, 1, 0, 0, 1⟩]⟩

def cex2B : Graph ℤ := ⟨[⟨true, true⟩, ⟨false, true⟩], [⟨0, 1, 0, 0, 1⟩]⟩

/-- What `compose cex2A cex2B` evaluates to: state pairs `(0,0)`, `(1,1)`,
`(1,0)` become nodes `0`, `1`, `2`. -/
def cex2C : Graph ℤ :=
  ⟨[⟨true, false⟩, ⟨false, true⟩, ⟨false, true⟩],
    [⟨0, 1, 0, 0, 2⟩, ⟨0, 2, 0, 0, 1⟩, ⟨2, 1, 0, 0, 1⟩]⟩

/-! ### forward (functions.cpp lines 465-514)

The Kahn walk of `forward` is embedded with explicit fuel.  A node is pushed
exactly when its remaining in-degree reaches zero, so every node is pushed at
most once and `numNodes` pops always suffice; this is proved below
(`forwardLoop_drains`).  Scores live in `Option W` with `none` playing the
role of the C++ `neginf` sentinel, and the log-add is a parameter `la`
(instantiated with `logadd` at `ℝ`). -/

/-- The state of the forward walk: per-node scores, remaining in-degrees and
the FIFO queue. -/
structure FState (W : Type) where
  scores : List (Option W)
  degrees : List Int
  queue : List Nat

/-- One arc relaxation (functions.cpp lines 485-491):
`scores[dn] = logadd(score + weight(a), scores[dn])`, decrement the
in-degree of `dn` and push `dn` when it reaches zero.  `sc` is the score of
the popped node, cached before the arc loop exactly as in the source. -/
def relaxArc [Zero W] [Add W] (g : Graph W) (la : Option W → Option W → Option W)
    (sc : Option W) (st : FState W) (a : Nat) : FState W :=
  let dn := g.downNode a
  let d' := st.degrees.getD dn 0 - 1
  { scores := st.scores.set dn (la (sc.map (· + g.weight a)) (st.scores.getD dn none)),
    degrees := st.degrees.set dn d',
    queue := if d' = 0 then st.queue ++ [dn] else st.queue }

/-- The `while` loop of `forward` (functions.cpp lines 481-492). -/
def forwardLoop [Zero W] [Add W] (g : Graph W) (la : Option W → Option W → Option W) :
    Nat → FState W → FState W
  | 0, st => st
  | fuel+1, st =>
    match st.queue with
    | [] => st
    | n :: rest =>
      let sc := st.scores.getD n none
      forwardLoop g la fuel
        ((g.outArcs n).foldl (relaxArc g la sc) ⟨st.scores, st.degrees, rest⟩)

/-- The initialisation of `forward` (functions.cpp lines 466-479): scores
`-∞` except `0` at start nodes; in-degrees; start nodes with no in-arcs
queued. -/
def forwardInit [Zero W] (g : Graph W) : FState W :=
  { scores := (List.range g.numNodes).map fun n => if g.start n then some 0 else none,
    degrees := (List.range g.numNodes).map fun n => (g.numIn n : Int),
    queue := g.startIds.filter fun n => g.numIn n = 0 }

/-- `forward` from functions.cpp: run the Kahn walk, fail if any accept node
retains a positive in-degree, and otherwise return an item graph whose arc
weight is the log-add over the accept scores. -/
def forward [Zero W] [Add W] (la : Option W → Option W → Option W) (g : Graph W) :
    Except String (Graph (Option W)) :=
  let st := forwardLoop g la g.numNodes (forwardInit g)
  if g.acceptIds.all (fun a => st.degrees.getD a 0 ≤ 0) then
    let score := g.acceptIds.foldl (fun s a => la s (st.scores.getD a none)) none
    Except.ok (((Graph.emptyGraph.addNode true false).addNode false true).addArc 0 1 0 0 score)
  else
    Except.error "Graph has a cycle, self-loop or is disconnected!"

/-! #### Tainted nodes

A node is tainted when it is reachable from a directed cycle.  Tainted nodes
can never be popped by the Kahn walk: some in-arc of theirs always retains an
unpopped source. -/

/-- Reachable (by a possibly empty path) from a node lying on a cycle. -/
def Graph.Tainted [Zero W] (g : Graph W) (m : Nat) : Prop :=
  ∃ c p q, p ≠ [] ∧ g.pathOk c p c ∧ g.pathOk c q m

/-! #### The walk invariant -/

/-- The number of in-arcs of `n` whose source has been popped (is in `X`) or
which have themselves been relaxed during the current pop (are in `done`). -/
def inCount [Zero W] (g : Graph W) (X done : List Nat) (n : Nat) : Nat :=
  ((g.inArcs n).filter fun a => decide (g.upNode a ∈ X) || decide (a ∈ done)).length

/-- The invariant of the forward Kahn walk between pops.  `X` is the list of
popped nodes. -/
structure FInv (g : Graph ℝ) (X : List Nat) (st : FState ℝ) : Prop where
  hslen : st.scores.length = g.numNodes
  hdlen : st.degrees.length = g.numNodes
  hnodup : (X ++ st.queue).Nodup
  hbound : ∀ n ∈ X ++ st.queue, n < g.numNodes
  hdeg : ∀ n < g.numNodes,
    st.degrees.getD n 0 = (g.numIn n : Int) - (inCount g X [] n : Int)
  hmem : ∀ n < g.numNodes,
    (n ∈ X ++ st.queue ↔ st.degrees.getD n 0 = 0 ∧ (g.start n = true ∨ 0 < g.numIn n))
  htaint : ∀ m ∈ X ++ st.queue, ¬ g.Tainted m
  hscore : ∀ n < g.numNodes,
    expO (st.scores.getD n none)
      = (if g.start n = true then 1 else 0)
        + (((g.inArcs n).filter fun a => decide (g.upNode a ∈ X) || decide (a ∈ ([] : List Nat))).map
            fun a => expO (st.scores.getD (g.upNode a) none) * Real.exp (g.weight a)).sum

/-- The invariant during the arc loop of one pop of `u`: the arcs in `done`
have been relaxed, `sc` is the cached score of `u`. -/
structure FMidInv (g : Graph ℝ) (X : List Nat) (u : Nat) (sc : Option ℝ) (done : List Nat)
    (st : FState ℝ) : Prop where
  hslen : st.scores.length = g.numNodes
  hdlen : st.degrees.length = g.numNodes
  hnodup : ((X ++ [u]) ++ st.queue).Nodup
  hbound : ∀ n ∈ (X ++ [u]) ++ st.queue, n < g.numNodes
  hdone : ∀ a ∈ done, a ∈ g.outArcs u
  hdeg : ∀ n < g.numNodes,
    st.degrees.getD n 0 = (g.numIn n : Int) - (inCount g X done n : Int)
  hmem : ∀ n < g.numNodes,
    (n ∈ (X ++ [u]) ++ st.queue ↔ st.degrees.getD n 0 = 0 ∧ (g.start n = true ∨ 0 < g.numIn n))
  htaint : ∀ m ∈ (X ++ [u]) ++ st.queue, ¬ g.Tainted m
  hsc : st.scores.getD u none = sc
  hscore : ∀ n < g.numNodes,
    expO (st.scores.getD n none)
      = (if g.start n = true then 1 else 0)
        + (((g.inArcs n).filter fun a => decide (g.upNode a ∈ X) || decide (a ∈ done)).map
            fun a => expO (st.scores.getD (g.upNode a) none) * Real.exp (g.weight a)).sum

/-- A cyclic graph on which `forward` succeeds: node `0` is start and accept,
the cycle `1 → 2 → 1` is disjoint from it. -/
def gC5cyc : Graph ℝ :=
  ⟨[⟨true, true⟩, ⟨false, false⟩, ⟨false, false⟩], [⟨1, 2, 1, 1, 1⟩, ⟨2, 1, 1, 1, 1⟩]⟩

/-- A graph whose accept node `2` is reachable from the cycle `1 → 2 → 1`. -/
def gC5w : Graph ℝ :=
  ⟨[⟨true, false⟩, ⟨false, false⟩, ⟨false, true⟩], [⟨1, 2, 1, 1, 1⟩, ⟨2, 1, 1, 1, 1⟩]⟩

/-! ### C3: `forward` computes the log-sum-exp over start-to-accept paths

The final accumulation of `forward` starts from the `neginf` sentinel, so the
log-sum-exp of an empty path list is the sentinel `none`. -/

/-- Log-sum-exp of a list of path weights (`none` embeds `-inf` for the empty
list). -/
noncomputable def logSumExp (l : List ℝ) : Option ℝ :=
  if l = [] then none else some (Real.log ((l.map Real.exp).sum))

/-- Every start-to-accept path of `g`, as a pair (start node, arc list): the
accept nodes' complete `pathsTo` enumerations concatenated. -/
def Graph.startAcceptPaths [Zero W] (g : Graph W) : List (Nat × List Nat) :=
  g.acceptIds.flatMap fun t => g.pathsTo g.numNodes t

/-- `m` reaches `n` along a nonempty path. -/
def Graph.ReachesNE [Zero W] (g : Graph W) (m n : Nat) : Prop :=
  ∃ p, p ≠ [] ∧ g.pathOk m p n

/-- The number of nodes that reach `n` along a nonempty path.  In an acyclic
graph it strictly decreases from `n` to the source of any in-arc of `n`, and
serves as the induction measure for the completeness of the Kahn walk. -/
noncomputable def Graph.rank [Zero W] (g : Graph W) (n : Nat) : Nat :=
  ((List.range g.numNodes).filter fun m =>
    @decide (g.ReachesNE m n) (Classical.dec _)).length

/-- Sum of `exp` of the weights of all start-to-`t` paths of length `< fuel`. -/
noncomputable def Graph.pathExpSum (g : Graph ℝ) (fuel t : Nat) : ℝ :=
  ((g.pathsTo fuel t).map fun sp => Real.exp (g.pathWeight sp.2)).sum

/-- Acyclic graph whose accept node `2` is reachable from the start node `0`,
but whose isolated non-start node `1` also has an arc into `2`. -/
def gC3cx : Graph ℝ :=
  ⟨[⟨true, false⟩, ⟨false, false⟩, ⟨false, true⟩], [⟨0, 2, 1, 1, 1⟩, ⟨1, 2, 1, 1, 1⟩]⟩

/-- The chain `0 → 1 → 2` used as witness input for the amended C3. -/
def gC3w : Graph ℝ :=
  ⟨[⟨true, false⟩, ⟨false, false⟩, ⟨false, true⟩], [⟨0, 1, 1, 1, 0⟩, ⟨1, 2, 1, 1, 0⟩]⟩

/-! ### C4: the backward pass of `forward` (functions.cpp lines 427-463)

`forwardGrad` runs a reverse Kahn walk over out-degrees.  Node gradients are
seeded at accept nodes with `d * exp(score[n] - output)`; popping `n` caches
`score = scores[n]` and `gradn = nodeGrads[n]` and then, for every in-arc `a`
with source `un`, sets `arcGrads[a] = gradn * exp(weight(a) + scores[un] -
score)`, accumulates it into `nodeGrads[un]` and decrements the out-degree of
`un`, pushing it at zero.  The C++ `float` values are embedded as reals; the
result is the pair (arc gradients, node gradients). -/

/-- The state of the reverse Kahn walk of `forwardGrad`. -/
structure GState where
  nodeGrads : List ℝ
  arcGrads : List ℝ
  degrees : List Int
  queue : List Nat

/-- One in-arc relaxation of `forwardGrad` (functions.cpp lines 452-459);
`sc` and `gn` are the score and node gradient of the popped node, cached
before the arc loop exactly as in the source. -/
noncomputable def gradRelax (g : Graph ℝ) (scores : List ℝ) (sc gn : ℝ) (st : GState) (a : Nat) :
    GState :=
  let un := g.upNode a
  let ag := gn * Real.exp (g.weight a + scores.getD un 0 - sc)
  let d' := st.degrees.getD un 0 - 1
  { nodeGrads := st.nodeGrads.set un (st.nodeGrads.getD un 0 + ag),
    arcGrads := st.arcGrads.set a ag,
    degrees := st.degrees.set un d',
    queue := if d' = 0 then st.queue ++ [un] else st.queue }

/-- The `while` loop of `forwardGrad` (functions.cpp lines 447-461). -/
noncomputable def forwardGradLoop (g : Graph ℝ) (scores : List ℝ) : Nat → GState → GState
  | 0, st => st
  | fuel+1, st =>
    match st.queue with
    | [] => st
    | n :: rest =>
      forwardGradLoop g scores fuel
        ((g.inArcs n).foldl
          (gradRelax g scores (scores.getD n 0) (st.nodeGrads.getD n 0))
          ⟨st.nodeGrads, st.arcGrads, st.degrees, rest⟩)

/-- The initialisation of `forwardGrad` (functions.cpp lines 433-445):
out-degrees, zero arc gradients, node gradients seeded at accept nodes,
accept nodes without out-arcs queued. -/
noncomputable def forwardGradInit (g : Graph ℝ) (output d : ℝ) (scores : List ℝ) : GState :=
  { nodeGrads := (List.range g.numNodes).map fun n =>
      if g.accept n then d * Real.exp (scores.getD n 0 - output) else 0,
    arcGrads := (List.range g.numArcs).map fun _ => (0 : ℝ),
    degrees := (List.range g.numNodes).map fun n => (g.numOut n : Int),
    queue := g.acceptIds.filter fun n => g.numOut n = 0 }

/-- `forwardGrad` from functions.cpp: run the reverse Kahn walk and return
(arc gradients, node gradients); the C++ installs the arc gradients on the
input graph via `addGrad`. -/
noncomputable def forwardGrad (g : Graph ℝ) (output d : ℝ) (scores : List ℝ) : List ℝ × List ℝ :=
  let st := forwardGradLoop g scores g.numNodes (forwardGradInit g output d scores)
  (st.arcGrads, st.nodeGrads)

/-- The number of out-arcs of `n` whose target has been popped (is in `X`) or
which have themselves been relaxed during the current pop (are in `done`). -/
def outCount [Zero W] (g : Graph W) (X done : List Nat) (n : Nat) : Nat :=
  ((g.outArcs n).filter fun a => decide (g.downNode a ∈ X) || decide (a ∈ done)).length

/-- The invariant of the reverse Kahn walk between pops; `X` is the list of
popped nodes. -/
structure GInv (g : Graph ℝ) (scores : List ℝ) (output d : ℝ) (X : List Nat)
    (st : GState) : Prop where
  hnlen : st.nodeGrads.length = g.numNodes
  halen : st.arcGrads.length = g.numArcs
  hdlen : st.degrees.length = g.numNodes
  hnodup : (X ++ st.queue).Nodup
  hbound : ∀ n ∈ X ++ st.queue, n < g.numNodes
  hdeg : ∀ n < g.numNodes,
    st.degrees.getD n 0 = (g.numOut n : Int) - (outCount g X [] n : Int)
  hmem : ∀ n < g.numNodes,
    (n ∈ X ++ st.queue ↔
      st.degrees.getD n 0 = 0 ∧ (g.accept n = true ∨ 0 < g.numOut n))
  harcX : ∀ a < g.numArcs, g.downNode a ∈ X →
    st.arcGrads.getD a 0 = st.nodeGrads.getD (g.downNode a) 0
      * Real.exp (g.weight a + scores.getD (g.upNode a) 0
          - scores.getD (g.downNode a) 0)
  harc0 : ∀ a < g.numArcs, g.downNode a ∉ X → st.arcGrads.getD a 0 = 0
  hgrad : ∀ n < g.numNodes,
    st.nodeGrads.getD n 0
      = (if g.accept n = true then d * Real.exp (scores.getD n 0 - output) else 0)
        + (((g.outArcs n).filter fun a =>
              decide (g.downNode a ∈ X) || decide (a ∈ ([] : List Nat))).map
            fun a => st.arcGrads.getD a 0).sum

/-- The invariant during the in-arc loop of one pop of `n`: the arcs in
`done` have been relaxed, `sc` and `gn` are the cached score and node
gradient of `n`. -/
structure GMidInv (g : Graph ℝ) (scores : List ℝ) (output d : ℝ) (X : List Nat)
    (n : Nat) (sc gn : ℝ) (done : List Nat) (st : GState) : Prop where
  hnlen : st.nodeGrads.length = g.numNodes
  halen : st.arcGrads.length = g.numArcs
  hdlen : st.degrees.length = g.numNodes
  hnodup : ((X ++ [n]) ++ st.queue).Nodup
  hbound : ∀ m ∈ (X ++ [n]) ++ st.queue, m < g.numNodes
  hdone : ∀ a ∈ done, a ∈ g.inArcs n
  hpop : ∀ a ∈ g.outArcs n, g.downNode a ∈ X
  hdeg : ∀ u < g.numNodes,
    st.degrees.getD u 0 = (g.numOut u : Int) - (outCount g X done u : Int)
  hmem : ∀ u < g.numNodes,
    (u ∈ (X ++ [n]) ++ st.queue ↔
      st.degrees.getD u 0 = 0 ∧ (g.accept u = true ∨ 0 < g.numOut u))
  hgn : st.nodeGrads.getD n 0 = gn
  hdoneval : ∀ a ∈ done,
    st.arcGrads.getD a 0
      = gn * Real.exp (g.weight a + scores.getD (g.upNode a) 0 - sc)
  harcX : ∀ a < g.numArcs, g.downNode a ∈ X →
    st.arcGrads.getD a 0 = st.nodeGrads.getD (g.downNode a) 0
      * Real.exp (g.weight a + scores.getD (g.upNode a) 0
          - scores.getD (g.downNode a) 0)
  harc0 : ∀ a < g.numArcs, g.downNode a ∉ X → a ∉ done → st.arcGrads.getD a 0 = 0
  hgrad : ∀ u < g.numNodes,
    st.nodeGrads.getD u 0
      = (if g.accept u = true then d * Real.exp (scores.getD u 0 - output) else 0)
        + (((g.outArcs u).filter fun a =>
              decide (g.downNode a ∈ X) || decide (a ∈ done)).map
            fun a => st.arcGrads.getD a 0).sum

/-- The number of nodes reachable from `n` along a nonempty path; the dual of
`rank`, strictly decreasing from a node to the target of any of its
out-arcs. -/
noncomputable def Graph.coRank [Zero W] (g : Graph W) (n : Nat) : Nat :=
  ((List.range g.numNodes).filter fun m =>
    @decide (g.ReachesNE n m) (Classical.dec _)).length

/-- The chain `0 → 1 → 2` with accept node `1` and a plain (non-accept) sink
`2`: `forward` succeeds on it, but the reverse walk of `forwardGrad` starts
with an empty queue. -/
def gC4cx : Graph ℝ :=
  ⟨[⟨true, false⟩, ⟨false, true⟩, ⟨false, false⟩], [⟨0, 1, 1, 1, 0⟩, ⟨1, 2, 1, 1, 0⟩]⟩

/-- The chain `0 → 1 → 2` with accept node `2` (every sink accepts), used as
witness input for the amended C4. -/
def gC4w : Graph ℝ :=
  ⟨[⟨true, false⟩, ⟨false, false⟩, ⟨false, true⟩], [⟨0, 1, 1, 1, 0⟩, ⟨1, 2, 1, 1, 0⟩]⟩

@[simp] theorem Graph.pathOk_nil [Zero W] (g : Graph W) {s t : Nat} :
    g.pathOk s [] t ↔ s = t := Iff.rfl

@[simp] theorem Graph.pathOk_cons [Zero W] (g : Graph W) {s t a : Nat} {p : List Nat} :
    g.pathOk s (a :: p) t ↔
      a < g.numArcs ∧ g.upNode a = s ∧ g.pathOk (g.downNode a) p t := Iff.rfl

theorem Graph.pathOk_append [Zero W] (g : Graph W) {p q : List Nat} {s t : Nat} :
    g.pathOk s (p ++ q) t ↔ ∃ m, g.pathOk s p m ∧ g.pathOk m q t := by
  induction p generalizing s with
  | nil => simp
  | cons a p ih =>
    simp only [List.cons_append, pathOk_cons, ih]
    constructor
    · rintro ⟨h1, h2, m, h3, h4⟩; exact ⟨m, ⟨h1, h2, h3⟩, h4⟩
    · rintro ⟨m, ⟨h1, h2, h3⟩, h4⟩; exact ⟨h1, h2, m, h3, h4⟩

theorem Graph.le_of_pathOk_increasing [Zero W] (g : Graph W)
    (h : ∀ a < g.numArcs, g.upNode a < g.downNode a) {s t : Nat} {p : List Nat}
    (hp : g.pathOk s p t) : s ≤ t ∧ (p ≠ [] → s < t) := by
  induction p generalizing s with
  | nil => rcases hp with rfl; exact ⟨le_rfl, by simp⟩
  | cons a p ih =>
    obtain ⟨h1, h2, h3⟩ := hp
    obtain ⟨h4, -⟩ := ih h3
    have := h a h1
    omega

/-- A graph whose every arc goes from a lower to a higher node index is
acyclic; used to discharge acyclicity at concrete graphs. -/
theorem Graph.acyclic_of_increasing [Zero W] (g : Graph W)
    (h : ∀ a < g.numArcs, g.upNode a < g.downNode a) : g.Acyclic := by
  intro n p hne hp
  obtain ⟨-, hlt⟩ := g.le_of_pathOk_increasing h hp
  exact absurd (hlt hne) (lt_irrefl n)

theorem Graph.pathNodes_mem_lt [Zero W] (g : Graph W) (hWF : g.WF) {s t : Nat}
    {p : List Nat} (hs : s < g.numNodes) (hp : g.pathOk s p t) :
    ∀ x ∈ g.pathNodes s p, x < g.numNodes := by
  induction p generalizing s with
  | nil => simpa [pathNodes]
  | cons a p ih =>
    obtain ⟨h1, h2, h3⟩ := hp
    have hd : g.downNode a < g.numNodes := (hWF a h1).2
    intro x hx
    simp only [pathNodes, List.map_cons, List.mem_cons] at hx
    rcases hx with rfl | hx
    · exact hs
    · exact ih hd h3 x (by simpa [pathNodes] using hx)

theorem Graph.pathOk_split [Zero W] (g : Graph W) {s t : Nat} {p : List Nat}
    (hp : g.pathOk s p t) (i : Nat) (hi : i ≤ p.length) :
    g.pathOk s (p.take i) ((g.pathNodes s p).getD i 0) ∧
      g.pathOk ((g.pathNodes s p).getD i 0) (p.drop i) t := by
  induction p generalizing s i with
  | nil =>
    simp only [List.length_nil, Nat.le_zero] at hi
    subst hi
    exact ⟨rfl, hp⟩
  | cons a p ih =>
    obtain ⟨h1, h2, h3⟩ := hp
    cases i with
    | zero => exact ⟨rfl, h1, h2, h3⟩
    | succ i =>
      have hi' : i ≤ p.length := by simpa using hi
      obtain ⟨hl, hr⟩ := ih h3 i hi'
      refine ⟨?_, ?_⟩
      · exact ⟨h1, h2, hl⟩
      · exact hr

theorem List.not_nodup_extract {α : Type} {l : List α} (h : ¬ l.Nodup) :
    ∃ (l₁ : List α) (x : α) (l₂ l₃ : List α), l = l₁ ++ (x :: (l₂ ++ (x :: l₃))) := by
  induction l with
  | nil => exact absurd List.nodup_nil h
  | cons a l ih =>
    by_cases hmem : a ∈ l
    · obtain ⟨l₂, l₃, rfl⟩ := List.append_of_mem hmem
      exact ⟨[], a, l₂, l₃, rfl⟩
    · have hnd : ¬ l.Nodup := fun hnd => h (List.nodup_cons.mpr ⟨hmem, hnd⟩)
      obtain ⟨l₁, x, l₂, l₃, rfl⟩ := ih hnd
      exact ⟨a :: l₁, x, l₂, l₃, rfl⟩

theorem List.nodup_length_le_of_lt {l : List Nat} {n : Nat}
    (hl : ∀ x ∈ l, x < n) (hnd : l.Nodup) : l.length ≤ n := by
  have h1 : l.length = l.toFinset.card := (List.toFinset_card_of_nodup hnd).symm
  have h2 : l.toFinset ⊆ Finset.range n := by
    intro x hx
    exact Finset.mem_range.mpr (hl x (List.mem_toFinset.mp hx))
  calc l.length = l.toFinset.card := h1
    _ ≤ (Finset.range n).card := Finset.card_le_card h2
    _ = n := Finset.card_range n

theorem List.getD_drop_add {α : Type} (l : List α) (i k : Nat) (d : α) :
    (l.drop i).getD k d = l.getD (i + k) d := by
  rw [List.getD_eq_getD_get?, List.getD_eq_getD_get?]
  simp [List.get?_eq_getElem?, List.getElem?_drop]

/-- In a well-formed acyclic graph, every path from a node is shorter than the
number of nodes. -/
theorem Graph.path_length_lt [Zero W] (g : Graph W) (hWF : g.WF) (hA : g.Acyclic)
    {s t : Nat} {p : List Nat} (hs : s < g.numNodes) (hp : g.pathOk s p t) :
    p.length < g.numNodes := by
  by_contra hcon
  push_neg at hcon
  have hlt := g.pathNodes_mem_lt hWF hs hp
  have hnodes_len : (g.pathNodes s p).length = p.length + 1 := by simp [pathNodes]
  have hnd : ¬ (g.pathNodes s p).Nodup := by
    intro hnd
    have := List.nodup_length_le_of_lt hlt hnd
    omega
  obtain ⟨l₁, x, l₂, l₃, hsplit⟩ := List.not_nodup_extract hnd
  have hlen : p.length + 1 = l₁.length + l₂.length + l₃.length + 2 := by
    rw [← hnodes_len, hsplit]; simp; omega
  have hgi : (g.pathNodes s p).getD l₁.length 0 = x := by
    rw [hsplit, List.getD_append_right l₁ _ 0 l₁.length le_rfl]
    simp
  have hgj : (g.pathNodes s p).getD (l₁.length + l₂.length + 1) 0 = x := by
    rw [hsplit, List.getD_append_right l₁ _ 0 _ (by omega)]
    have hj₂ : l₁.length + l₂.length + 1 - l₁.length = l₂.length + 1 := by omega
    rw [hj₂, List.getD_cons_succ, List.getD_append_right l₂ _ 0 l₂.length le_rfl]
    simp
  obtain ⟨-, h2⟩ := g.pathOk_split hp l₁.length (by omega)
  rw [hgi] at h2
  obtain ⟨h3, -⟩ := g.pathOk_split h2 (l₂.length + 1) (by simp; omega)
  have hmid : (g.pathNodes x (p.drop l₁.length)).getD (l₂.length + 1) 0 = x := by
    have hnodes_drop :
        g.pathNodes x (p.drop l₁.length) = x :: (p.map g.downNode).drop l₁.length := by
      simp [pathNodes]
    rw [hnodes_drop, List.getD_cons_succ, List.getD_drop_add]
    have h5 : (g.pathNodes s p).getD (l₁.length + l₂.length + 1) 0
        = (p.map g.downNode).getD (l₁.length + l₂.length) 0 := by
      unfold Graph.pathNodes
      rw [List.getD_cons_succ]
    rw [← h5, hgj]
  rw [hmid] at h3
  have hne : (p.drop l₁.length).take (l₂.length + 1) ≠ [] := by
    have hlength : ((p.drop l₁.length).take (l₂.length + 1)).length = l₂.length + 1 := by
      simp
      omega
    intro hcontra
    rw [hcontra] at hlength
    simp at hlength
  exact hA x _ hne h3

theorem Graph.mem_inArcs [Zero W] (g : Graph W) {a n : Nat} :
    a ∈ g.inArcs n ↔ a < g.numArcs ∧ g.downNode a = n := by
  simp [inArcs, List.mem_filter, List.mem_range]

theorem Graph.mem_outArcs [Zero W] (g : Graph W) {a n : Nat} :
    a ∈ g.outArcs n ↔ a < g.numArcs ∧ g.upNode a = n := by
  simp [outArcs, List.mem_filter, List.mem_range]

theorem Graph.mem_pathsTo [Zero W] (g : Graph W) {fuel t : Nat} {s : Nat}
    {p : List Nat} :
    (s, p) ∈ g.pathsTo fuel t ↔
      g.start s = true ∧ g.pathOk s p t ∧ p.length < fuel := by
  induction fuel generalizing t p with
  | zero => simp [pathsTo]
  | succ fuel ih =>
    simp only [pathsTo, List.mem_append, List.mem_flatMap, List.mem_map]
    constructor
    · rintro (h | ⟨a, ha, ⟨s', p'⟩, hmem, heq⟩)
      · have hstart : g.start t = true := by
          by_contra hc
          simp [Bool.not_eq_true] at hc
          simp [hc] at h
        simp [hstart] at h
        obtain ⟨rfl, rfl⟩ := h
        exact ⟨hstart, rfl, Nat.succ_pos _⟩
      · obtain ⟨rfl, rfl⟩ := Prod.mk.injEq .. ▸ heq
        obtain ⟨hst, hpok, hlen⟩ := ih.mp hmem
        obtain ⟨haA, haD⟩ := g.mem_inArcs.mp ha
        refine ⟨hst, ?_, by simpa using Nat.succ_lt_succ hlen⟩
        rw [g.pathOk_append]
        exact ⟨g.upNode a, hpok, haA, rfl, haD⟩
    · rintro ⟨hst, hpok, hlen⟩
      rcases List.eq_nil_or_concat' p with rfl | ⟨p', a, rfl⟩
      · rcases hpok with rfl
        left; simp [hst]
      · right
        rw [g.pathOk_append] at hpok
        obtain ⟨m, hp1, hp2⟩ := hpok
        obtain ⟨haA, haU, haD⟩ := hp2
        rcases haD with rfl
        refine ⟨a, g.mem_inArcs.mpr ⟨haA, rfl⟩, (s, p'), ?_, rfl⟩
        exact ih.mpr ⟨hst, haU ▸ hp1, by simp at hlen ⊢; omega⟩

theorem Graph.nodup_pathsTo [Zero W] (g : Graph W) (fuel t : Nat) :
    (g.pathsTo fuel t).Nodup := by
  induction fuel generalizing t with
  | zero => simp [pathsTo]
  | succ fuel ih =>
    unfold pathsTo
    apply List.Nodup.append
    · split <;> simp
    · rw [List.nodup_flatMap]
      constructor
      · intro a ha
        apply List.Nodup.map _ (ih (g.upNode a))
        intro ⟨s1, p1⟩ ⟨s2, p2⟩ h
        simp only [Prod.mk.injEq] at h ⊢
        exact ⟨h.1, by have := h.2; simpa using this⟩
      · have hnd : (g.inArcs t).Nodup := List.Nodup.filter _ (List.nodup_range _)
        refine hnd.imp ?_
        intro a b hne
        intro x hxa hxb
        simp only [List.mem_map] at hxa hxb
        obtain ⟨⟨s1, p1⟩, -, h1⟩ := hxa
        obtain ⟨⟨s2, p2⟩, -, h2⟩ := hxb
        apply hne
        have hpp : p1 ++ [a] = p2 ++ [b] := by
          have e1 := congrArg Prod.snd h1
          have e2 := congrArg Prod.snd h2
          simp only at e1 e2
          rw [e1, e2]
        have := congrArg (fun l => l.getLast?) hpp
        simpa using this
    · intro x hx hx'
      simp only [List.mem_flatMap, List.mem_map] at hx'
      obtain ⟨a, -, ⟨s1, p1⟩, -, heq⟩ := hx'
      have hxsnd : x.2 = p1 ++ [a] := by rw [← heq]
      split at hx
      · simp at hx
        rw [hx] at hxsnd
        simp at hxsnd
      · simp at hx

theorem Graph.pathsTo_perm [Zero W] (g : Graph W) {f₁ f₂ t : Nat}
    (h : ∀ s p, g.start s = true → g.pathOk s p t → p.length < f₁ ∧ p.length < f₂) :
    (g.pathsTo f₁ t).Perm (g.pathsTo f₂ t) := by
  rw [List.perm_ext_iff_of_nodup (g.nodup_pathsTo f₁ t) (g.nodup_pathsTo f₂ t)]
  intro ⟨s, p⟩
  rw [g.mem_pathsTo, g.mem_pathsTo]
  constructor
  · rintro ⟨h1, h2, -⟩; exact ⟨h1, h2, (h s p h1 h2).2⟩
  · rintro ⟨h1, h2, -⟩; exact ⟨h1, h2, (h s p h1 h2).1⟩

theorem expO_none : expO none = 0 := rfl

theorem expO_some (x : ℝ) : expO (some x) = Real.exp x := rfl

theorem max_add_log_eq (x y : ℝ) :
    max x y + Real.log (1 + Real.exp (-|x - y|)) = Real.log (Real.exp x + Real.exp y) := by
  have key : ∀ u v : ℝ,
      v + Real.log (1 + Real.exp (u - v)) = Real.log (Real.exp u + Real.exp v) := by
    intro u v
    have hx : Real.exp v * (1 + Real.exp (u - v)) = Real.exp u + Real.exp v := by
      rw [mul_add, mul_one, ← Real.exp_add, show v + (u - v) = u by ring]
      ring
    rw [← hx, Real.log_mul (by positivity) (by positivity), Real.log_exp]
  rcases le_total x y with h | h
  · rw [max_eq_right h, abs_of_nonpos (sub_nonpos.mpr h), neg_neg]
    exact key x y
  · rw [max_eq_left h, abs_of_nonneg (sub_nonneg.mpr h), show -(x - y) = y - x by ring,
      show Real.exp x + Real.exp y = Real.exp y + Real.exp x by ring]
    exact key y x

theorem logadd_some_some (x y : ℝ) :
    logadd (some x) (some y) = some (Real.log (Real.exp x + Real.exp y)) := by
  have h : logadd (some x) (some y)
      = some (max x y + Real.log (1 + Real.exp (-|x - y|))) := rfl
  rw [h, max_add_log_eq]

theorem expO_logadd (a b : Option ℝ) : expO (logadd a b) = expO a + expO b := by
  cases a with
  | none => simp [logadd, expO]
  | some x =>
    cases b with
    | none => simp [logadd, expO]
    | some y =>
      rw [logadd_some_some, expO_some, expO_some, expO_some, Real.exp_log (by positivity)]

theorem expO_eq_zero_iff (a : Option ℝ) : expO a = 0 ↔ a = none := by
  cases a with
  | none => simp [expO]
  | some x => simp [expO, Real.exp_ne_zero]

/-- Claim C9: `logadd` has `-∞` as a two-sided identity (exactly, by the two
explicit branches of the code) and is commutative. -/
theorem C9_logadd_identity_comm :
    (∀ x : Option ℝ, logadd none x = x) ∧ (∀ x : Option ℝ, logadd x none = x) ∧
      (∀ x y : Option ℝ, logadd x y = logadd y x) := by
  refine ⟨fun x => rfl, fun x => by cases x <;> rfl, fun x y => ?_⟩
  cases x with
  | none => cases y <;> rfl
  | some a =>
    cases y with
    | none => rfl
    | some b =>
      have h1 : logadd (some a) (some b)
          = some (max a b + Real.log (1 + Real.exp (-|a - b|))) := rfl
      have h2 : logadd (some b) (some a)
          = some (max b a + Real.log (1 + Real.exp (-|b - a|))) := rfl
      rw [h1, h2, max_comm, abs_sub_comm]

theorem Graph.item_eq_some {g : Graph W} {w : W} (h : g.item = some w) :
    g.nodes = [⟨true, false⟩, ⟨false, true⟩] ∧ g.arcs = [⟨0, 1, 0, 0, w⟩] := by
  unfold Graph.item at h
  split at h
  · next w' hn ha =>
    obtain rfl : w' = w := by simpa using h
    exact ⟨hn, ha⟩
  · exact Option.noConfusion h

/-- Claim C8: `subtract(a,b)` of item graphs is an item graph with weight
`a.item() - b.item()`, and its backward accumulates the deltas weights into
`a` and the negated deltas weights into `b`. -/
theorem C8_subtract_correct (a b deltas : Graph ℝ) (x y d : ℝ)
    (ha : a.item = some x) (hb : b.item = some y) (hd : deltas.item = some d) :
    (∃ s, subtract a b = some s ∧ s.item = some (x - y)) ∧
      subtractGrad deltas = some ([d], [-d]) := by
  constructor
  · exact ⟨((Graph.emptyGraph.addNode true false).addNode false true).addArc 0 1 0 0 (x - y),
      by unfold subtract; rw [ha, hb], rfl⟩
  · obtain ⟨hn, harcs⟩ := Graph.item_eq_some hd
    obtain ⟨nodes, arcs⟩ := deltas
    have h1 : nodes = [⟨true, false⟩, ⟨false, true⟩] := hn
    have h2 : arcs = [⟨0, 1, 0, 0, d⟩] := harcs
    subst h1
    subst h2
    rfl

theorem nodes_foldl_addNode {α : Type} (l : List α) (g : Graph W) (f h : α → Bool) :
    (l.foldl (fun c x => c.addNode (f x) (h x)) g).nodes
      = g.nodes ++ l.map (fun x => ⟨f x, h x⟩) := by
  induction l generalizing g with
  | nil => simp
  | cons a l ih =>
    rw [List.foldl_cons, ih]
    simp [Graph.addNode]

theorem arcs_foldl_addNode {α : Type} (l : List α) (g : Graph W) (f h : α → Bool) :
    (l.foldl (fun c x => c.addNode (f x) (h x)) g).arcs = g.arcs := by
  induction l generalizing g with
  | nil => rfl
  | cons a l ih =>
    rw [List.foldl_cons, ih]
    rfl

theorem arcs_foldl_addArc {α : Type} (l : List α) (g : Graph W) (mk : α → Arc W) :
    (l.foldl (fun c x => c.addArc (mk x).upNode (mk x).downNode (mk x).ilabel
        (mk x).olabel (mk x).weight) g).arcs
      = g.arcs ++ l.map mk := by
  induction l generalizing g with
  | nil => simp
  | cons a l ih =>
    rw [List.foldl_cons, ih]
    simp [Graph.addArc]

theorem nodes_foldl_addArc {α : Type} (l : List α) (g : Graph W) (mk : α → Arc W) :
    (l.foldl (fun c x => c.addArc (mk x).upNode (mk x).downNode (mk x).ilabel
        (mk x).olabel (mk x).weight) g).nodes = g.nodes := by
  induction l generalizing g with
  | nil => rfl
  | cons a l ih =>
    rw [List.foldl_cons, ih]
    rfl

theorem closure_nodes [Zero W] (g : Graph W) :
    (closure g).nodes
      = ⟨true, true⟩ :: (List.range g.numNodes).map (fun n => ⟨false, g.accept n⟩) := by
  unfold closure
  have h1 : ∀ (l : List Nat) (c : Graph W),
      (l.foldl (fun c s =>
        g.acceptIds.foldl (fun c a => c.addArc (a + 1) (s + 1) 0 0 0)
          (c.addArc 0 (s + 1) 0 0 0)) c).nodes = c.nodes := by
    intro l
    induction l with
    | nil => intro c; rfl
    | cons s l ih =>
      intro c
      rw [List.foldl_cons, ih]
      have h2 : ∀ (l' : List Nat) (c' : Graph W),
          (l'.foldl (fun c a => c.addArc (a + 1) (s + 1) 0 0 0) c').nodes = c'.nodes := by
        intro l'
        induction l' with
        | nil => intro c'; rfl
        | cons a l' ih' => intro c'; rw [List.foldl_cons, ih']; rfl
      rw [h2]
      rfl
  rw [h1]
  have h3 := nodes_foldl_addArc (W := W) (List.range g.numArcs)
    ((List.range g.numNodes).foldl (fun c n => c.addNode false (g.accept n))
      (Graph.emptyGraph.addNode true true))
    (fun a => ⟨g.upNode a + 1, g.downNode a + 1, g.ilabel a, g.olabel a, g.weight a⟩)
  rw [h3, nodes_foldl_addNode]
  rfl

theorem closure_arcs [Zero W] (g : Graph W) :
    (closure g).arcs
      = g.arcs.map (fun ar => ⟨ar.upNode + 1, ar.downNode + 1, ar.ilabel, ar.olabel, ar.weight⟩)
        ++ g.startIds.flatMap (fun s =>
            (⟨0, s + 1, 0, 0, 0⟩ : Arc W) :: g.acceptIds.map (fun a => ⟨a + 1, s + 1, 0, 0, 0⟩)) := by
  unfold closure
  have harcs_inner : ∀ (l' : List Nat) (s : Nat) (c' : Graph W),
      (l'.foldl (fun c a => c.addArc (a + 1) (s + 1) 0 0 0) c').arcs
        = c'.arcs ++ l'.map (fun a => (⟨a + 1, s + 1, 0, 0, 0⟩ : Arc W)) := by
    intro l' s
    induction l' with
    | nil => intro c'; simp
    | cons a l' ih =>
      intro c'
      rw [List.foldl_cons, ih]
      simp [Graph.addArc]
  have h1 : ∀ (l : List Nat) (c : Graph W),
      (l.foldl (fun c s =>
        g.acceptIds.foldl (fun c a => c.addArc (a + 1) (s + 1) 0 0 0)
          (c.addArc 0 (s + 1) 0 0 0)) c).arcs
        = c.arcs ++ l.flatMap (fun s =>
            (⟨0, s + 1, 0, 0, 0⟩ : Arc W) :: g.acceptIds.map (fun a => ⟨a + 1, s + 1, 0, 0, 0⟩)) := by
    intro l
    induction l with
    | nil => intro c; simp
    | cons s l ih =>
      intro c
      rw [List.foldl_cons, ih, harcs_inner]
      simp [Graph.addArc]
  rw [h1]
  have h3 := arcs_foldl_addArc (W := W) (List.range g.numArcs)
    ((List.range g.numNodes).foldl (fun c n => c.addNode false (g.accept n))
      (Graph.emptyGraph.addNode true true))
    (fun a => ⟨g.upNode a + 1, g.downNode a + 1, g.ilabel a, g.olabel a, g.weight a⟩)
  rw [h3, arcs_foldl_addNode]
  have h4 : (List.range g.numArcs).map
      (fun a => (⟨g.upNode a + 1, g.downNode a + 1, g.ilabel a, g.olabel a, g.weight a⟩ : Arc W))
      = g.arcs.map (fun ar => ⟨ar.upNode + 1, ar.downNode + 1, ar.ilabel, ar.olabel, ar.weight⟩) := by
    apply List.ext_getElem
    · simp [Graph.numArcs]
    · intro i h₁ h₂
      simp only [List.getElem_map, List.getElem_range]
      have hi : i < g.arcs.length := by simpa [Graph.numArcs] using h₂
      have hacc : ∀ (f : Arc W → Nat), True := fun _ => trivial
      simp [Graph.upNode, Graph.downNode, Graph.ilabel, Graph.olabel, Graph.weight,
        Graph.arcD, List.getElem?_eq_getElem hi]
  rw [h4]
  simp [Graph.emptyGraph, Graph.addNode]

/-- Claim C7: structure of `closure(g)`: node `0` is both start and accept;
node `k+1` carries `start = false`, `accept = g.accept k`; arcs
`0 .. numArcs-1` are `g`'s arcs in order with endpoints shifted by one and
labels and weights unchanged; each old start `s` has an epsilon arc
`0 → s+1`, each (old accept `t`, old start `s`) pair an epsilon arc
`t+1 → s+1`; the backward gradient for `g` is the vector of deltas weights at
indices `0 .. numArcs-1`. -/
theorem C7_closure_structure [Zero W] (g : Graph W) :
    (closure g).start 0 = true ∧ (closure g).accept 0 = true ∧
      (∀ k < g.numNodes,
        (closure g).start (k + 1) = false ∧ (closure g).accept (k + 1) = g.accept k) ∧
      (closure g).arcs.take g.numArcs
        = g.arcs.map (fun ar =>
            ⟨ar.upNode + 1, ar.downNode + 1, ar.ilabel, ar.olabel, ar.weight⟩) ∧
      (∀ s ∈ g.startIds, (⟨0, s + 1, 0, 0, 0⟩ : Arc W) ∈ (closure g).arcs) ∧
      (∀ t ∈ g.acceptIds, ∀ s ∈ g.startIds,
        (⟨t + 1, s + 1, 0, 0, 0⟩ : Arc W) ∈ (closure g).arcs) ∧
      (∀ deltas : Graph W,
        closureGrad g deltas = (List.range g.numArcs).map fun i => deltas.weight i) := by
  refine ⟨?_, ?_, ?_, ?_, ?_, ?_, fun _ => rfl⟩
  · simp [Graph.start, closure_nodes]
  · simp [Graph.accept, closure_nodes]
  · intro k hk
    constructor
    · rw [Graph.start, closure_nodes, List.getD_cons_succ,
        List.getD_eq_getElem _ _ (by simpa using hk)]
      simp
    · rw [Graph.accept, closure_nodes, List.getD_cons_succ,
        List.getD_eq_getElem _ _ (by simpa using hk)]
      simp
  · rw [closure_arcs, List.take_append_of_le_length (by simp [Graph.numArcs]),
      List.take_of_length_le (by simp [Graph.numArcs])]
  · intro s hs
    rw [closure_arcs]
    refine List.mem_append_right _ ?_
    exact List.mem_flatMap.mpr ⟨s, hs, List.mem_cons_self _ _⟩
  · intro t ht s hs
    rw [closure_arcs]
    refine List.mem_append_right _ ?_
    refine List.mem_flatMap.mpr ⟨s, hs, List.mem_cons_of_mem _ ?_⟩
    exact List.mem_map.mpr ⟨t, ht, rfl⟩

/-- Claim C6 counterexample: in
`g = (node 0: plain, node 1: start, node 2: accept; arc 1 → 2 labels (1,1))`,
node `0` is dropped, so the kept nodes `1`, `2` map to result nodes
`map[1] = 0`, `map[2] = 1`.  The walk from `n = 1` emits its non-matching
out-arc with source `1` — the original index `n` — instead of `map[n] = 0`:
`remove(g, ε, ε)` contains the self-loop `1 → 1` and no arc leaving node `0`. -/
theorem C6_remove_uses_original_index :
    remove (⟨[⟨false, false⟩, ⟨true, false⟩, ⟨false, true⟩],
        [⟨1, 2, 1, 1, 1⟩]⟩ : Graph ℤ) 0 0
      = (⟨[⟨true, false⟩, ⟨false, true⟩], [⟨1, 1, 1, 1, 0⟩]⟩ : Graph ℤ) ∧
    (remove (⟨[⟨false, false⟩, ⟨true, false⟩, ⟨false, true⟩],
        [⟨1, 2, 1, 1, 1⟩]⟩ : Graph ℤ) 0 0).upNode 0 = 1 ∧
    ¬ ∃ a < (remove (⟨[⟨false, false⟩, ⟨true, false⟩, ⟨false, true⟩],
        [⟨1, 2, 1, 1, 1⟩]⟩ : Graph ℤ) 0 0).numArcs,
      (remove (⟨[⟨false, false⟩, ⟨true, false⟩, ⟨false, true⟩],
          [⟨1, 2, 1, 1, 1⟩]⟩ : Graph ℤ) 0 0).upNode a = 0 := by
  refine ⟨by decide, by decide, ?_⟩
  rintro ⟨a, ha, hup⟩
  have h1 : (remove (⟨[⟨false, false⟩, ⟨true, false⟩, ⟨false, true⟩],
      [⟨1, 2, 1, 1, 1⟩]⟩ : Graph ℤ) 0 0).numArcs = 1 := by decide
  rw [h1] at ha
  have ha0 : a = 0 := by omega
  subst ha0
  revert hup
  decide

theorem Graph.lt_numNodes_of_accept [Zero W] {g : Graph W} {t : Nat}
    (h : g.accept t = true) : t < g.numNodes := by
  by_contra hc
  push_neg at hc
  unfold Graph.accept at h
  rw [List.getD_eq_default _ _ hc] at h
  exact Bool.false_ne_true h

theorem Graph.lt_numNodes_of_start [Zero W] {g : Graph W} {s : Nat}
    (h : g.start s = true) : s < g.numNodes := by
  by_contra hc
  push_neg at hc
  unfold Graph.start at h
  rw [List.getD_eq_default _ _ hc] at h
  exact Bool.false_ne_true h

/-- Claim C1 counterexample: for `cexA`, `cexB` there is a start-to-accept
path in `A` (arc `0`, input labels eliding to `[]`, output labels eliding to
`[]`, weight `1`) and a start-to-accept path in `B` (the empty path at its
start-and-accept node `1`) with matching intermediate labels and weight sum
`1`; yet `compose(A,B)` contains no start-to-accept path with those elided
labels and that weight — the `epsilon_matched` guard of pass 1 never marks
the product state `(0,1)` reachable, so the composed path is dropped. -/
theorem C1_compose_drops_path :
    (compose cexA cexB).1 = cexC ∧
      (cexA.acceptPath 0 [0] ∧ cexB.acceptPath 1 [] ∧
        elide (cexA.pathOlabels [0]) = elide (cexB.pathIlabels []) ∧
        cexA.pathWeight [0] + cexB.pathWeight [] = 1) ∧
      ¬ ∃ s p, (compose cexA cexB).1.acceptPath s p ∧
          elide ((compose cexA cexB).1.pathIlabels p) = elide (cexA.pathIlabels [0]) ∧
          elide ((compose cexA cexB).1.pathOlabels p) = elide (cexB.pathOlabels []) ∧
          (compose cexA cexB).1.pathWeight p = 1 := by
  have hC : (compose cexA cexB).1 = cexC := by decide
  refine ⟨hC, ⟨⟨by decide, 1, by decide, by decide⟩, ⟨by decide, 1, by decide, by decide⟩,
    by decide, by decide⟩, ?_⟩
  rintro ⟨s, p, hap, hils, hols, hw⟩
  rw [hC] at hap hils hols hw
  obtain ⟨hstart, t, hpok, hacc⟩ := hap
  have hWFC : cexC.WF := by decide
  have hacy : cexC.Acyclic := cexC.acyclic_of_increasing (by decide)
  have hs : s < cexC.numNodes := Graph.lt_numNodes_of_start hstart
  have hlen := cexC.path_length_lt hWFC hacy hs hpok
  have htlt : t < cexC.numNodes := Graph.lt_numNodes_of_accept hacc
  have hnn : cexC.numNodes = 2 := by decide
  have ht : t = 1 := by
    rcases (by omega : t = 0 ∨ t = 1) with rfl | rfl
    · exact absurd hacc (by decide)
    · rfl
  subst ht
  have hmem : (s, p) ∈ cexC.pathsTo cexC.numNodes 1 :=
    cexC.mem_pathsTo.mpr ⟨hstart, hpok, hlen⟩
  have henum : cexC.pathsTo cexC.numNodes 1 = [(0, [0])] := by decide
  rw [henum] at hmem
  simp only [List.mem_singleton, Prod.mk.injEq] at hmem
  obtain ⟨rfl, rfl⟩ := hmem
  exact absurd hols (by decide)

/-- Claim C2 counterexample: for `cex2A`, `cex2B` the single A-arc (output
epsilon) can match the single B-arc (input epsilon), and the unique matching
path pair `(A: [0], B: [0])` with elided labels `([], [])` and weight `2` is
realised by two distinct start-to-accept paths of `compose(A,B)` — the
paired arc `[0]` and the single-sided detour `[1, 2]` through state `(1,0)`
— so that pair is double-counted (pass 2 has no `epsilon_matched` guard). -/
theorem C2_compose_double_counts :
    (compose cex2A cex2B).1 = cex2C ∧
      (cex2A.olabel 0 = 0 ∧ cex2B.ilabel 0 = 0) ∧
      (cex2C.acceptPath 0 [0] ∧ cex2C.acceptPath 0 [1, 2] ∧ ([0] : List Nat) ≠ [1, 2] ∧
        elide (cex2C.pathIlabels [0]) = elide (cex2C.pathIlabels [1, 2]) ∧
        elide (cex2C.pathOlabels [0]) = elide (cex2C.pathOlabels [1, 2]) ∧
        cex2C.pathWeight [0] = cex2C.pathWeight [1, 2]) ∧
      (∀ sa pa sb pb, cex2A.acceptPath sa pa → cex2B.acceptPath sb pb →
        elide (cex2A.pathOlabels pa) = elide (cex2B.pathIlabels pb) →
        elide (cex2A.pathIlabels pa) = elide (cex2C.pathIlabels [0]) →
        elide (cex2B.pathOlabels pb) = elide (cex2C.pathOlabels [0]) →
        cex2A.pathWeight pa + cex2B.pathWeight pb = cex2C.pathWeight [0] →
        sa = 0 ∧ pa = [0] ∧ sb = 0 ∧ pb = [0]) := by
  refine ⟨by decide, ⟨by decide, by decide⟩,
    ⟨⟨by decide, 1, by decide, by decide⟩, ⟨by decide, 1, by decide, by decide⟩,
      by decide, by decide, by decide, by decide⟩, ?_⟩
  intro sa pa sb pb hA hB hmatch hil hol hw
  obtain ⟨hsa, ta, hpa, hacca⟩ := hA
  obtain ⟨hsb, tb, hpb, haccb⟩ := hB
  have hWFA : cex2A.WF := by decide
  have hacyA : cex2A.Acyclic := cex2A.acyclic_of_increasing (by decide)
  have hWFB : cex2B.WF := by decide
  have hacyB : cex2B.Acyclic := cex2B.acyclic_of_increasing (by decide)
  have hlena := cex2A.path_length_lt hWFA hacyA (Graph.lt_numNodes_of_start hsa) hpa
  have hlenb := cex2B.path_length_lt hWFB hacyB (Graph.lt_numNodes_of_start hsb) hpb
  have htalt : ta < cex2A.numNodes := Graph.lt_numNodes_of_accept hacca
  have htblt : tb < cex2B.numNodes := Graph.lt_numNodes_of_accept haccb
  have hnnA : cex2A.numNodes = 2 := by decide
  have hnnB : cex2B.numNodes = 2 := by decide
  have hta : ta = 1 := by
    rcases (by omega : ta = 0 ∨ ta = 1) with rfl | rfl
    · exact absurd hacca (by decide)
    · rfl
  subst hta
  have hmema : (sa, pa) ∈ cex2A.pathsTo cex2A.numNodes 1 :=
    cex2A.mem_pathsTo.mpr ⟨hsa, hpa, hlena⟩
  have henumA : cex2A.pathsTo cex2A.numNodes 1 = [(0, [0])] := by decide
  rw [henumA] at hmema
  simp only [List.mem_singleton, Prod.mk.injEq] at hmema
  obtain ⟨rfl, rfl⟩ := hmema
  rcases (by omega : tb = 0 ∨ tb = 1) with rfl | rfl
  · have hmemb : (sb, pb) ∈ cex2B.pathsTo cex2B.numNodes 0 :=
      cex2B.mem_pathsTo.mpr ⟨hsb, hpb, hlenb⟩
    have henumB : cex2B.pathsTo cex2B.numNodes 0 = [(0, [])] := by decide
    rw [henumB] at hmemb
    simp only [List.mem_singleton, Prod.mk.injEq] at hmemb
    obtain ⟨rfl, rfl⟩ := hmemb
    exact absurd hw (by decide)
  · have hmemb : (sb, pb) ∈ cex2B.pathsTo cex2B.numNodes 1 :=
      cex2B.mem_pathsTo.mpr ⟨hsb, hpb, hlenb⟩
    have henumB : cex2B.pathsTo cex2B.numNodes 1 = [(0, [0])] := by decide
    rw [henumB] at hmemb
    simp only [List.mem_singleton, Prod.mk.injEq] at hmemb
    obtain ⟨rfl, rfl⟩ := hmemb
    exact ⟨rfl, rfl, rfl, rfl⟩

/-! #### List helper lemmas for the walk invariants -/

theorem List.getD_set_ne {α : Type} (l : List α) {i j : Nat} (hij : i ≠ j) (x : α) (d : α) :
    (l.set i x).getD j d = l.getD j d := by
  rw [List.getD_eq_getD_get?, List.getD_eq_getD_get?]
  simp [List.get?_eq_getElem?, List.getElem?_set_ne hij]

theorem List.getD_set_self {α : Type} (l : List α) {i : Nat} (hi : i < l.length) (x : α)
    (d : α) : (l.set i x).getD i d = x := by
  rw [List.getD_eq_getD_get?]
  simp [List.get?_eq_getElem?, List.getElem?_set_self hi]

theorem List.length_filter_mono {α : Type} {l : List α} {p q : α → Bool}
    (h : ∀ x ∈ l, p x = true → q x = true) :
    (l.filter p).length ≤ (l.filter q).length := by
  induction l with
  | nil => simp
  | cons y l ih =>
    have ih' := ih (fun x hx => h x (List.mem_cons_of_mem _ hx))
    by_cases hpy : p y = true
    · have hqy := h y (List.mem_cons_self _ _) hpy
      simp [List.filter_cons, hpy, hqy]
      omega
    · simp only [Bool.not_eq_true] at hpy
      by_cases hqy : q y = true
      · simp [List.filter_cons, hpy, hqy]
        omega
      · simp only [Bool.not_eq_true] at hqy
        simp [List.filter_cons, hpy, hqy]
        omega

theorem List.length_filter_lt {α : Type} {l : List α} {p q : α → Bool}
    (h : ∀ x ∈ l, p x = true → q x = true) {x : α} (hx : x ∈ l)
    (hpx : p x = false) (hqx : q x = true) :
    (l.filter p).length < (l.filter q).length := by
  induction l with
  | nil => simp at hx
  | cons y l ih =>
    have hmono := List.length_filter_mono (fun z hz => h z (List.mem_cons_of_mem _ hz))
    rcases List.mem_cons.mp hx with rfl | hx'
    · simp [List.filter_cons, hpx, hqx]
      omega
    · have ih' := ih (fun z hz hpz => h z (List.mem_cons_of_mem _ hz) hpz) hx'
      by_cases hpy : p y = true
      · have hqy := h y (List.mem_cons_self _ _) hpy
        simp [List.filter_cons, hpy, hqy]
        omega
      · simp only [Bool.not_eq_true] at hpy
        by_cases hqy : q y = true
        · simp [List.filter_cons, hpy, hqy]
          omega
        · simp only [Bool.not_eq_true] at hqy
          simp [List.filter_cons, hpy, hqy]
          omega

theorem List.length_filter_succ {α : Type} {l : List α} {p q : α → Bool} {a : α}
    (hl : l.Nodup) (ha : a ∈ l) (hpa : p a = false) (hqa : q a = true)
    (hother : ∀ b ∈ l, b ≠ a → p b = q b) :
    (l.filter q).length = (l.filter p).length + 1 := by
  induction l with
  | nil => simp at ha
  | cons y l ih =>
    rw [List.nodup_cons] at hl
    rcases List.mem_cons.mp ha with rfl | ha'
    · have hcong : l.filter p = l.filter q := by
        apply List.filter_congr
        intro b hb
        exact hother b (List.mem_cons_of_mem _ hb) (fun hba => hl.1 (hba ▸ hb))
      simp [List.filter_cons, hpa, hqa, hcong]
    · have hya : y ≠ a := fun hya => hl.1 (hya ▸ ha')
      have hpq := hother y (List.mem_cons_self _ _) hya
      have ih' := ih hl.2 ha' (fun b hb hba => hother b (List.mem_cons_of_mem _ hb) hba)
      by_cases hpy : p y = true
      · simp [List.filter_cons, hpy, ← hpq, ih']
      · simp only [Bool.not_eq_true] at hpy
        simp [List.filter_cons, hpy, ← hpq, ih']

theorem List.sum_filter_succ {α : Type} {l : List α} {p q : α → Bool} {a : α} {f : α → ℝ}
    (hl : l.Nodup) (ha : a ∈ l) (hpa : p a = false) (hqa : q a = true)
    (hother : ∀ b ∈ l, b ≠ a → p b = q b) :
    ((l.filter q).map f).sum = ((l.filter p).map f).sum + f a := by
  induction l with
  | nil => simp at ha
  | cons y l ih =>
    rw [List.nodup_cons] at hl
    rcases List.mem_cons.mp ha with rfl | ha'
    · have hcong : l.filter p = l.filter q := by
        apply List.filter_congr
        intro b hb
        exact hother b (List.mem_cons_of_mem _ hb) (fun hba => hl.1 (hba ▸ hb))
      simp [List.filter_cons, hpa, hqa, hcong]
      ring
    · have hya : y ≠ a := fun hya => hl.1 (hya ▸ ha')
      have hpq := hother y (List.mem_cons_self _ _) hya
      have ih' := ih hl.2 ha' (fun b hb hba => hother b (List.mem_cons_of_mem _ hb) hba)
      by_cases hpy : p y = true
      · simp [List.filter_cons, hpy, ← hpq, ih']
        ring
      · simp only [Bool.not_eq_true] at hpy
        simp [List.filter_cons, hpy, ← hpq, ih']

theorem Graph.tainted_pred [Zero W] (g : Graph W) {m : Nat} (h : g.Tainted m) :
    ∃ a, a < g.numArcs ∧ g.downNode a = m ∧ g.Tainted (g.upNode a) := by
  obtain ⟨c, p, q, hpne, hpc, hq⟩ := h
  rcases List.eq_nil_or_concat' q with rfl | ⟨q', a, rfl⟩
  · rcases hq with rfl
    rcases List.eq_nil_or_concat' p with rfl | ⟨p', a, rfl⟩
    · exact absurd rfl hpne
    · have hpc' := hpc
      rw [g.pathOk_append] at hpc
      obtain ⟨mid, hp1, hp2⟩ := hpc
      obtain ⟨haA, haU, haD⟩ := hp2
      exact ⟨a, haA, haD, c, p' ++ [a], p', hpne, hpc', haU ▸ hp1⟩
  · rw [g.pathOk_append] at hq
    obtain ⟨mid, hq1, hq2⟩ := hq
    obtain ⟨haA, haU, haD⟩ := hq2
    exact ⟨a, haA, haD, c, p, q', hpne, hpc, haU ▸ hq1⟩

theorem expO_map_add (o : Option ℝ) (w : ℝ) :
    expO (o.map (· + w)) = expO o * Real.exp w := by
  cases o with
  | none => simp [expO]
  | some x => simp [expO, Real.exp_add]

theorem filter_out_eq_push [Zero W] (g : Graph W) (X : List Nat) (u : Nat) (n : Nat) :
    ((g.inArcs n).filter fun a => decide (g.upNode a ∈ X) || decide (a ∈ g.outArcs u))
      = ((g.inArcs n).filter fun a =>
          decide (g.upNode a ∈ X ++ [u]) || decide (a ∈ ([] : List Nat))) := by
  apply List.filter_congr
  intro a ha
  have haA : a < g.numArcs := (g.mem_inArcs.mp ha).1
  rw [← Bool.decide_or, ← Bool.decide_or, decide_eq_decide]
  simp only [g.mem_outArcs, List.mem_append, List.mem_singleton, List.not_mem_nil, or_false]
  tauto

theorem finv_to_mid {g : Graph ℝ} {X : List Nat} {S : List (Option ℝ)} {D : List Int}
    {u : Nat} {rest : List Nat} (h : FInv g X ⟨S, D, u :: rest⟩) :
    FMidInv g X u (S.getD u none) [] ⟨S, D, rest⟩ := by
  obtain ⟨h1, h2, h3, h4, h5, h6, h7, h8⟩ := h
  have hring : X ++ u :: rest = (X ++ [u]) ++ rest := by simp
  rw [hring] at h3 h4 h6 h7
  exact ⟨h1, h2, h3, h4, by simp, h5, h6, h7, rfl, h8⟩

theorem mid_to_finv {g : Graph ℝ} {X : List Nat} {u : Nat} {sc : Option ℝ} {st : FState ℝ}
    (h : FMidInv g X u sc (g.outArcs u) st) : FInv g (X ++ [u]) st := by
  obtain ⟨h1, h2, h3, h4, -, h6, h7, h8, -, h10⟩ := h
  refine ⟨h1, h2, h3, h4, ?_, h7, h8, ?_⟩
  · intro n hn
    rw [h6 n hn]
    unfold inCount
    rw [filter_out_eq_push]
  · intro n hn
    rw [h10 n hn, filter_out_eq_push]

/-- One relaxation step preserves the mid-pop invariant. -/
theorem fmid_step {g : Graph ℝ} {X : List Nat} {u : Nat} {sc : Option ℝ} {done : List Nat}
    {st : FState ℝ} (hWF : g.WF) (h : FMidInv g X u sc done st) {a : Nat}
    (ha : a ∈ g.outArcs u) (hnd : a ∉ done) :
    FMidInv g X u sc (done ++ [a]) (relaxArc g logadd sc st a) := by
  obtain ⟨h1, h2, h3, h4, h5, h6, h7, h8, h9, h10⟩ := h
  obtain ⟨haA, haU⟩ := g.mem_outArcs.mp ha
  have hdnlt : g.downNode a < g.numNodes := (hWF a haA).2
  have hane : a ∈ g.inArcs (g.downNode a) := g.mem_inArcs.mpr ⟨haA, rfl⟩
  have hinnd : ∀ m : Nat, (g.inArcs m).Nodup :=
    fun m => List.Nodup.filter _ (List.nodup_range _)
  have hult : u < g.numNodes := h4 u (by simp)
  have hunotX : u ∉ X := by
    intro hmemX
    have hnd2 : (X ++ [u]).Nodup := (List.nodup_append.mp h3).1
    exact (List.nodup_append.mp hnd2).2.2 hmemX (List.mem_singleton_self u)
  have hpred_a : (decide (g.upNode a ∈ X) || decide (a ∈ done)) = false := by
    simp [haU, hunotX, hnd]
  have hcount_lt : inCount g X done (g.downNode a) < g.numIn (g.downNode a) := by
    unfold inCount Graph.numIn
    have hlt := List.length_filter_lt
      (p := fun x => decide (g.upNode x ∈ X) || decide (x ∈ done))
      (q := fun _ => true) (fun x _ _ => rfl) hane hpred_a rfl
    simpa [List.filter_true] using hlt
  have hdeg_dn :
      st.degrees.getD (g.downNode a) 0
        = (g.numIn (g.downNode a) : Int) - (inCount g X done (g.downNode a) : Int) :=
    h6 _ hdnlt
  have hdeg_pos : 1 ≤ st.degrees.getD (g.downNode a) 0 := by
    rw [hdeg_dn]; omega
  have hdn_not : g.downNode a ∉ (X ++ [u]) ++ st.queue := by
    intro hmem1
    have hz := ((h7 _ hdnlt).mp hmem1).1
    omega
  have hdnX : g.downNode a ∉ X := fun hc => hdn_not (by simp [hc])
  have hdnU : g.downNode a ≠ u := fun hc => hdn_not (by simp [hc])
  have hfilter_ne : ∀ n, n ≠ g.downNode a →
      ((g.inArcs n).filter fun b => decide (g.upNode b ∈ X) || decide (b ∈ done ++ [a]))
        = ((g.inArcs n).filter fun b => decide (g.upNode b ∈ X) || decide (b ∈ done)) := by
    intro n hne
    apply List.filter_congr
    intro b hb
    have hba : b ≠ a := by
      intro hba
      subst hba
      exact hne ((g.mem_inArcs.mp hb).2.symm)
    simp [List.mem_append, hba]
  have hsrc_ne : ∀ (dl : List Nat), (∀ x ∈ dl, x ∈ g.outArcs u) → ∀ n, ∀ b ∈ (g.inArcs n).filter
      (fun b => decide (g.upNode b ∈ X) || decide (b ∈ dl)), g.upNode b ≠ g.downNode a := by
    intro dl hdl n b hb
    have hbp := (List.mem_filter.mp hb).2
    simp only [Bool.or_eq_true, decide_eq_true_eq] at hbp
    rcases hbp with hbp | hbp
    · exact fun hc => hdnX (hc ▸ hbp)
    · have hup := (g.mem_outArcs.mp (hdl b hbp)).2
      rw [hup]
      exact fun hc => hdnU hc.symm
  have hdone2 : ∀ b ∈ done ++ [a], b ∈ g.outArcs u := by
    intro b hb
    rcases List.mem_append.mp hb with hb | hb
    · exact h5 b hb
    · rw [List.mem_singleton.mp hb]; exact ha
  have hsucc : inCount g X (done ++ [a]) (g.downNode a) = inCount g X done (g.downNode a) + 1 := by
    unfold inCount
    refine List.length_filter_succ
      (p := fun x => decide (g.upNode x ∈ X) || decide (x ∈ done))
      (q := fun x => decide (g.upNode x ∈ X) || decide (x ∈ done ++ [a]))
      (hinnd _) hane hpred_a (by simp) ?_
    intro b hb hba
    simp [List.mem_append, hba]
  have hnumIn_pos : 0 < g.numIn (g.downNode a) := by
    unfold Graph.numIn
    exact List.length_pos.mpr (fun hc => by simp [hc] at hane)
  -- the score part: common to both queue cases
  have hscore2 : ∀ n < g.numNodes,
      expO ((st.scores.set (g.downNode a)
          (logadd (Option.map (· + g.weight a) sc) (st.scores.getD (g.downNode a) none))).getD n none)
        = (if g.start n = true then 1 else 0)
          + (((g.inArcs n).filter fun b => decide (g.upNode b ∈ X) || decide (b ∈ done ++ [a])).map
              fun b => expO ((st.scores.set (g.downNode a)
                (logadd (Option.map (· + g.weight a) sc) (st.scores.getD (g.downNode a) none))).getD
                  (g.upNode b) none) * Real.exp (g.weight b)).sum := by
    intro n hn
    by_cases hndn : n = g.downNode a
    · rw [← hndn] at hane
      rw [← hndn]
      rw [List.getD_set_self _ (by omega) _ _, expO_logadd, expO_map_add]
      rw [List.sum_filter_succ
        (p := fun x => decide (g.upNode x ∈ X) || decide (x ∈ done))
        (q := fun x => decide (g.upNode x ∈ X) || decide (x ∈ done ++ [a]))
        (f := fun b => expO ((st.scores.set n
          (logadd (Option.map (· + g.weight a) sc) (st.scores.getD n none))).getD
            (g.upNode b) none) * Real.exp (g.weight b))
        (hinnd n) hane hpred_a (by simp) (by intro b hb hba; simp [List.mem_append, hba])]
      have hmap : ((g.inArcs n).filter
            fun x => decide (g.upNode x ∈ X) || decide (x ∈ done)).map
              (fun b => expO ((st.scores.set n
                (logadd (Option.map (· + g.weight a) sc) (st.scores.getD n none))).getD
                  (g.upNode b) none) * Real.exp (g.weight b))
          = ((g.inArcs n).filter
            fun x => decide (g.upNode x ∈ X) || decide (x ∈ done)).map
              (fun b => expO (st.scores.getD (g.upNode b) none) * Real.exp (g.weight b)) := by
        apply List.map_congr_left
        intro b hb
        have hneb : n ≠ g.upNode b := by
          rw [hndn]
          exact (hsrc_ne done h5 n b hb).symm
        rw [List.getD_set_ne _ hneb _ _]
      rw [hmap]
      have hne' : n ≠ g.upNode a := by
        rw [hndn, haU]
        exact fun hc => hdnU hc
      have hterm : expO ((st.scores.set n
            (logadd (Option.map (· + g.weight a) sc) (st.scores.getD n none))).getD
              (g.upNode a) none) * Real.exp (g.weight a)
          = expO sc * Real.exp (g.weight a) := by
        rw [List.getD_set_ne _ hne' _ _, haU, h9]
      rw [hterm, h10 n hn]
      ring
    · rw [List.getD_set_ne _ (fun hc => hndn hc.symm) _ _, h10 n hn, hfilter_ne n hndn]
      congr 1
      apply congrArg
      apply List.map_congr_left
      intro b hb
      rw [List.getD_set_ne _ (hsrc_ne done h5 n b hb).symm _ _]
  have hsc2 : (st.scores.set (g.downNode a)
      (logadd (Option.map (· + g.weight a) sc) (st.scores.getD (g.downNode a) none))).getD u none
      = sc := by
    rw [List.getD_set_ne _ hdnU _ _]
    exact h9
  have hdeg2 : ∀ n < g.numNodes,
      (st.degrees.set (g.downNode a) (st.degrees.getD (g.downNode a) 0 - 1)).getD n 0
        = (g.numIn n : Int) - (inCount g X (done ++ [a]) n : Int) := by
    intro n hn
    by_cases hndn : n = g.downNode a
    · subst hndn
      rw [List.getD_set_self _ (by omega) _ _, hsucc, hdeg_dn]
      push_cast
      ring
    · rw [List.getD_set_ne _ (fun hc => hndn hc.symm) _ _, h6 n hn]
      unfold inCount
      rw [hfilter_ne n hndn]
  by_cases hpush : st.degrees.getD (g.downNode a) 0 - 1 = 0
  · -- the in-degree of the target reaches zero: it is pushed
    have hshape : relaxArc g logadd sc st a
        = ⟨st.scores.set (g.downNode a)
            (logadd (Option.map (· + g.weight a) sc) (st.scores.getD (g.downNode a) none)),
          st.degrees.set (g.downNode a) (st.degrees.getD (g.downNode a) 0 - 1),
          st.queue ++ [g.downNode a]⟩ := by
      simp only [relaxArc, hpush, reduceIte]
    rw [hshape]
    have hassoc : (X ++ [u]) ++ (st.queue ++ [g.downNode a])
        = ((X ++ [u]) ++ st.queue) ++ [g.downNode a] := by simp
    refine ⟨by simp [h1], by simp [h2], ?_, ?_, hdone2, hdeg2, ?_, ?_, hsc2, hscore2⟩
    · rw [hassoc]
      refine List.Nodup.append h3 (by simp) ?_
      intro x hx hx1
      rw [List.mem_singleton.mp hx1] at hx
      exact hdn_not hx
    · intro n hn
      rw [hassoc] at hn
      rcases List.mem_append.mp hn with hn | hn
      · exact h4 n hn
      · rw [List.mem_singleton.mp hn]; exact hdnlt
    · intro n hn
      rw [hassoc]
      by_cases hndn : n = g.downNode a
      · subst hndn
        rw [hdeg2 _ hn]
        constructor
        · intro _
          refine ⟨?_, Or.inr hnumIn_pos⟩
          rw [← hdeg2 _ hn, List.getD_set_self _ (by omega) _ _]
          exact hpush
        · intro _
          simp
      · rw [List.mem_append, List.getD_set_ne _ (fun hc => hndn hc.symm) _ _]
        constructor
        · rintro (hmem1 | hmem1)
          · exact (h7 n hn).mp hmem1
          · exact absurd (List.mem_singleton.mp hmem1) hndn
        · intro hrhs
          exact Or.inl ((h7 n hn).mpr hrhs)
    · intro m hm
      rw [hassoc] at hm
      rcases List.mem_append.mp hm with hm | hm
      · exact h8 m hm
      · rw [List.mem_singleton.mp hm]
        intro htaint
        obtain ⟨b, hbA, hbD, hbtaint⟩ := g.tainted_pred htaint
        have hbin : b ∈ g.inArcs (g.downNode a) := g.mem_inArcs.mpr ⟨hbA, hbD⟩
        have hbX : g.upNode b ∉ X := by
          intro hc
          exact h8 _ (by simp [hc]) hbtaint
        have hbu : g.upNode b ≠ u := by
          intro hc
          exact h8 u (by simp) (hc ▸ hbtaint)
        have hbdone : b ∉ done := by
          intro hc
          exact hbu (g.mem_outArcs.mp (h5 b hc)).2
        have hab : a ≠ b := by
          intro hc
          exact hbu (hc ▸ haU)
        have hpred_b : (decide (g.upNode b ∈ X) || decide (b ∈ done)) = false := by
          simp [hbX, hbdone]
        have hstep1 : ((g.inArcs (g.downNode a)).filter
              fun x => decide (g.upNode x ∈ X) || decide (x ∈ done)).length
            < ((g.inArcs (g.downNode a)).filter
              fun x => (decide (g.upNode x ∈ X) || decide (x ∈ done)) || decide (x = a)).length := by
          refine List.length_filter_lt
            (p := fun x => decide (g.upNode x ∈ X) || decide (x ∈ done))
            (q := fun x => (decide (g.upNode x ∈ X) || decide (x ∈ done)) || decide (x = a))
            ?_ hane hpred_a (by simp)
          intro x _ hx
          simp [hx]
        have hstep2 : ((g.inArcs (g.downNode a)).filter
              fun x => (decide (g.upNode x ∈ X) || decide (x ∈ done)) || decide (x = a)).length
            < ((g.inArcs (g.downNode a)).filter fun _ => true).length := by
          refine List.length_filter_lt
            (p := fun x => (decide (g.upNode x ∈ X) || decide (x ∈ done)) || decide (x = a))
            (q := fun _ => true) (fun x _ _ => rfl) hbin ?_ rfl
          have hba2 : b ≠ a := fun hc => hab hc.symm
          simp [hpred_b, hba2]
        rw [List.filter_true] at hstep2
        have hle2 : inCount g X done (g.downNode a) + 2 ≤ g.numIn (g.downNode a) := by
          unfold inCount Graph.numIn
          omega
        omega
  · -- no push
    have hshape : relaxArc g logadd sc st a
        = ⟨st.scores.set (g.downNode a)
            (logadd (Option.map (· + g.weight a) sc) (st.scores.getD (g.downNode a) none)),
          st.degrees.set (g.downNode a) (st.degrees.getD (g.downNode a) 0 - 1),
          st.queue⟩ := by
      simp only [relaxArc, hpush, reduceIte]
    rw [hshape]
    refine ⟨by simp [h1], by simp [h2], h3, h4, hdone2, hdeg2, ?_, h8, hsc2, hscore2⟩
    intro n hn
    by_cases hndn : n = g.downNode a
    · subst hndn
      rw [hdeg2 _ hn]
      constructor
      · intro hmem1
        exact absurd hmem1 hdn_not
      · rintro ⟨hz, -⟩
        rw [← hdeg2 _ hn, List.getD_set_self _ (by omega) _ _] at hz
        exact absurd hz hpush
    · rw [List.getD_set_ne _ (fun hc => hndn hc.symm) _ _]
      exact h7 n hn

theorem getD_map_range {α : Type} {k n : Nat} (hn : n < k) (f : Nat → α) (d : α) :
    ((List.range k).map f).getD n d = f n := by
  rw [List.getD_eq_getElem _ _ (by simpa using hn)]
  simp

/-- Folding the relaxation over the remaining out-arcs completes the pop. -/
theorem fmid_fold {g : Graph ℝ} {X : List Nat} {u : Nat} {sc : Option ℝ} (hWF : g.WF) :
    ∀ (A done : List Nat) (st : FState ℝ), g.outArcs u = done ++ A →
      FMidInv g X u sc done st →
      FMidInv g X u sc (g.outArcs u) (A.foldl (relaxArc g logadd sc) st) := by
  intro A
  induction A with
  | nil =>
    intro done st heq h
    rw [List.append_nil] at heq
    rw [heq]
    simpa using h
  | cons a A ih =>
    intro done st heq h
    have hnd : (g.outArcs u).Nodup := List.Nodup.filter _ (List.nodup_range _)
    have hamem : a ∈ g.outArcs u := by rw [heq]; simp
    have hadone : a ∉ done := by
      rw [heq] at hnd
      rcases List.nodup_append.mp hnd with ⟨-, -, hdisj⟩
      intro hc
      exact hdisj hc (by simp)
    have hstep := fmid_step hWF h hamem hadone
    have heq' : g.outArcs u = (done ++ [a]) ++ A := by rw [heq]; simp
    exact ih (done ++ [a]) _ heq' hstep

/-- Running the forward loop with enough fuel from an invariant state drains
the queue and preserves the invariant. -/
theorem forwardLoop_inv {g : Graph ℝ} (hWF : g.WF) :
    ∀ (fuel : Nat) (X : List Nat) (st : FState ℝ), FInv g X st →
      g.numNodes ≤ fuel + X.length →
      ∃ X', FInv g X' (forwardLoop g logadd fuel st)
        ∧ (forwardLoop g logadd fuel st).queue = [] := by
  intro fuel
  induction fuel with
  | zero =>
    intro X st h hfuel
    have hlen : (X ++ st.queue).length ≤ g.numNodes :=
      List.nodup_length_le_of_lt h.hbound h.hnodup
    rw [List.length_append] at hlen
    have hq : st.queue = [] := by
      have hq0 : st.queue.length = 0 := by omega
      exact List.length_eq_zero.mp hq0
    exact ⟨X, h, hq⟩
  | succ fuel ih =>
    intro X st h hfuel
    obtain ⟨S, D, Q⟩ := st
    cases Q with
    | nil => exact ⟨X, h, rfl⟩
    | cons u rest =>
      have hmid0 := finv_to_mid h
      have hmid := fmid_fold hWF (g.outArcs u) [] ⟨S, D, rest⟩ (by simp) hmid0
      have hinv' := mid_to_finv hmid
      have hfuel' : g.numNodes ≤ fuel + (X ++ [u]).length := by
        simp only [List.length_append, List.length_singleton]
        omega
      exact ih (X ++ [u]) _ hinv' hfuel'

/-- The initial state of `forward` satisfies the invariant with no node
popped. -/
theorem finv_init (g : Graph ℝ) : FInv g [] (forwardInit g) := by
  refine ⟨by simp [forwardInit], by simp [forwardInit], ?_, ?_, ?_, ?_, ?_, ?_⟩
  · simp only [List.nil_append, forwardInit]
    exact List.Nodup.filter _ (List.Nodup.filter _ (List.nodup_range _))
  · intro n hn
    simp only [List.nil_append, forwardInit] at hn
    have h1 := (List.mem_filter.mp hn).1
    have h2 := (List.mem_filter.mp h1).1
    exact List.mem_range.mp h2
  · intro n hn
    have hg : ((List.range g.numNodes).map fun n => (g.numIn n : Int)).getD n 0
        = (g.numIn n : Int) := getD_map_range hn _ _
    have hc : inCount g [] [] n = 0 := by
      unfold inCount
      have : ((g.inArcs n).filter fun a =>
          decide (g.upNode a ∈ ([] : List Nat)) || decide (a ∈ ([] : List Nat))) = [] := by
        simp
      rw [this]
      rfl
    simp only [forwardInit]
    rw [hg, hc]
    simp
  · intro n hn
    simp only [List.nil_append, forwardInit]
    have hg : ((List.range g.numNodes).map fun n => (g.numIn n : Int)).getD n 0
        = (g.numIn n : Int) := getD_map_range hn _ _
    rw [hg]
    constructor
    · intro hmem1
      have h1 := List.mem_filter.mp hmem1
      have h2 := List.mem_filter.mp h1.1
      have h3 : g.numIn n = 0 := by simpa using h1.2
      refine ⟨by simp [h3], Or.inl (by simpa using h2.2)⟩
    · rintro ⟨hz, hor⟩
      have h3 : g.numIn n = 0 := by exact_mod_cast hz
      have hstart : g.start n = true := by
        rcases hor with hor | hor
        · exact hor
        · omega
      refine List.mem_filter.mpr ⟨?_, by simp [h3]⟩
      exact List.mem_filter.mpr ⟨List.mem_range.mpr hn, by simp [hstart]⟩
  · intro m hm htaint
    simp only [List.nil_append, forwardInit] at hm
    have h1 := List.mem_filter.mp hm
    have h3 : g.numIn m = 0 := by simpa using h1.2
    obtain ⟨b, hbA, hbD, -⟩ := g.tainted_pred htaint
    have hbin : b ∈ g.inArcs m := g.mem_inArcs.mpr ⟨hbA, hbD⟩
    have hpos : 0 < g.numIn m := by
      unfold Graph.numIn
      exact List.length_pos.mpr (fun hc => by simp [hc] at hbin)
    omega
  · intro n hn
    simp only [forwardInit]
    have hg : ((List.range g.numNodes).map
          fun n => if g.start n then some (0 : ℝ) else none).getD n none
        = (if g.start n then some 0 else none) := getD_map_range hn _ _
    rw [hg]
    have hfil : ((g.inArcs n).filter fun a =>
        decide (g.upNode a ∈ ([] : List Nat)) || decide (a ∈ ([] : List Nat))) = [] := by
      simp
    rw [hfil]
    by_cases hs : g.start n = true
    · simp [hs, expO, Real.exp_zero]
    · simp only [Bool.not_eq_true] at hs
      simp [hs, expO]

/-- Claim C5 counterexample: `gC5cyc` contains a directed cycle, yet
`forward` returns normally (with score `0` from the isolated start-and-accept
node): the residual in-degree check runs only over accept nodes, so a cycle
that cannot reach an accept node is not detected. -/
theorem C5_counterexample_cycle_not_detected :
    (∃ n p, p ≠ [] ∧ gC5cyc.pathOk n p n) ∧
      forward logadd gC5cyc = Except.ok
        (((Graph.emptyGraph.addNode true false).addNode false true).addArc 0 1 0 0 (some 0)) := by
  constructor
  · exact ⟨1, [0, 1], by simp, by decide⟩
  · rfl

/-- Claim C5 (amended): if some accept node is reachable from a directed
cycle, `forward` fails with the CycleDetected error. -/
theorem C5_forward_cycle_detected (g : Graph ℝ) (hWF : g.WF)
    (h : ∃ t, g.accept t = true ∧ g.Tainted t) :
    forward logadd g = Except.error "Graph has a cycle, self-loop or is disconnected!" := by
  obtain ⟨t, hacc, htaint⟩ := h
  obtain ⟨X', hinv, hq⟩ :=
    forwardLoop_inv hWF g.numNodes [] (forwardInit g) (finv_init g) (by simp)
  have htlt : t < g.numNodes := Graph.lt_numNodes_of_accept hacc
  obtain ⟨b, hbA, hbD, hbt⟩ := g.tainted_pred htaint
  have hbin : b ∈ g.inArcs t := g.mem_inArcs.mpr ⟨hbA, hbD⟩
  have hbX : g.upNode b ∉ X' := by
    intro hc
    refine hinv.htaint _ ?_ hbt
    rw [hq]
    simpa using hc
  have hcnt : inCount g X' [] t < g.numIn t := by
    unfold inCount Graph.numIn
    have hlt := List.length_filter_lt
      (p := fun x => decide (g.upNode x ∈ X') || decide (x ∈ ([] : List Nat)))
      (q := fun _ => true) (fun x _ _ => rfl) hbin (by simp [hbX]) rfl
    simpa [List.filter_true] using hlt
  have hdeg := hinv.hdeg t htlt
  have hpos : 0 < (forwardLoop g logadd g.numNodes (forwardInit g)).degrees.getD t 0 := by
    rw [hdeg]; omega
  have hmem_t : t ∈ g.acceptIds :=
    List.mem_filter.mpr ⟨List.mem_range.mpr htlt, by simp [hacc]⟩
  have hall : (g.acceptIds.all fun a =>
      decide ((forwardLoop g logadd g.numNodes (forwardInit g)).degrees.getD a 0 ≤ 0))
        = false := by
    rw [Bool.eq_false_iff]
    intro htrue
    have hle := of_decide_eq_true (List.all_eq_true.mp htrue t hmem_t)
    omega
  simp only [forward]
  rw [hall]
  simp

/-- Claim C5 (amended) witness: on `gC5w` the accept node `2` lies on the
cycle `1 → 2 → 1` and `forward` indeed fails. -/
theorem C5_forward_cycle_detected_witness :
    (gC5w.WF ∧ gC5w.accept 2 = true ∧ gC5w.Tainted 2) ∧
      forward logadd gC5w
        = Except.error "Graph has a cycle, self-loop or is disconnected!" := by
  have hWF : gC5w.WF := by decide
  have htaint : gC5w.Tainted 2 := ⟨2, [1, 0], [], by simp, by decide, rfl⟩
  exact ⟨⟨hWF, rfl, htaint⟩, C5_forward_cycle_detected gC5w hWF ⟨2, rfl, htaint⟩⟩

/-- Claim C10: on an acyclic graph with no accept nodes, `forward` raises no
error (the residual in-degree check runs only over accept nodes) and returns
an item graph with weight `-∞`. -/
theorem C10_forward_no_accepts (g : Graph ℝ) (hA : g.Acyclic) (hacc : g.acceptIds = []) :
    forward logadd g = Except.ok
      (((Graph.emptyGraph.addNode true false).addNode false true).addArc 0 1 0 0 none) := by
  unfold forward
  rw [hacc]
  rfl

/-- Claim C10 witness: a one-node cyclic-free graph with a start node and no
accept node. -/
theorem C10_forward_no_accepts_witness :
    ((⟨[⟨true, false⟩], []⟩ : Graph ℝ).Acyclic ∧
        (⟨[⟨true, false⟩], []⟩ : Graph ℝ).acceptIds = []) ∧
      forward logadd (⟨[⟨true, false⟩], []⟩ : Graph ℝ) = Except.ok
        (((Graph.emptyGraph.addNode true false).addNode false true).addArc 0 1 0 0 none) := by
  have h1 : (⟨[⟨true, false⟩], []⟩ : Graph ℝ).Acyclic :=
    Graph.acyclic_of_increasing _ (by intro a ha; exact absurd ha (Nat.not_lt_zero a))
  have h2 : (⟨[⟨true, false⟩], []⟩ : Graph ℝ).acceptIds = [] := rfl
  exact ⟨⟨h1, h2⟩, C10_forward_no_accepts _ h1 h2⟩

/-- Claim C8 witness: `a = item(2.0)`, `b = item(3.0)` gives
`subtract(a,b).item() = -1.0`, and with seed `1.0` the gradients are `[1.0]`
and `[-1.0]`. -/
theorem C8_subtract_correct_witness :
    ((⟨[⟨true, false⟩, ⟨false, true⟩], [⟨0, 1, 0, 0, 2⟩]⟩ : Graph ℝ).item = some 2 ∧
        (⟨[⟨true, false⟩, ⟨false, true⟩], [⟨0, 1, 0, 0, 3⟩]⟩ : Graph ℝ).item = some 3 ∧
        (⟨[⟨true, false⟩, ⟨false, true⟩], [⟨0, 1, 0, 0, 1⟩]⟩ : Graph ℝ).item = some 1) ∧
      ((∃ s, subtract (⟨[⟨true, false⟩, ⟨false, true⟩], [⟨0, 1, 0, 0, 2⟩]⟩ : Graph ℝ)
            ⟨[⟨true, false⟩, ⟨false, true⟩], [⟨0, 1, 0, 0, 3⟩]⟩ = some s ∧
          s.item = some (2 - 3)) ∧
        subtractGrad (⟨[⟨true, false⟩, ⟨false, true⟩], [⟨0, 1, 0, 0, 1⟩]⟩ : Graph ℝ)
          = some ([1], [-1])) ∧
      (2 - 3 : ℝ) = -1 := by
  refine ⟨⟨rfl, rfl, rfl⟩, C8_subtract_correct _ _ _ 2 3 1 rfl rfl rfl, by norm_num⟩

theorem Graph.rank_lt [Zero W] (g : Graph W) (hWF : g.WF) (hacy : g.Acyclic)
    {n a : Nat} (haA : a < g.numArcs) (haD : g.downNode a = n) :
    g.rank (g.upNode a) < g.rank n := by
  have hup_lt : g.upNode a < g.numNodes := (hWF a haA).1
  unfold Graph.rank
  refine List.length_filter_lt ?_ (List.mem_range.mpr hup_lt) ?_ ?_
  · intro m hm hpm
    simp only [decide_eq_true_eq] at hpm ⊢
    obtain ⟨p, hpne, hpok⟩ := hpm
    refine ⟨p ++ [a], by simp, ?_⟩
    rw [g.pathOk_append]
    exact ⟨g.upNode a, hpok, haA, rfl, haD⟩
  · simp only [decide_eq_false_iff_not]
    rintro ⟨p, hpne, hpok⟩
    exact hacy _ p hpne hpok
  · simp only [decide_eq_true_eq]
    exact ⟨[a], by simp, haA, rfl, haD⟩

/-- A path determines its endpoint. -/
theorem Graph.pathOk_target_eq [Zero W] (g : Graph W) {s t₁ t₂ : Nat}
    {p : List Nat} (h₁ : g.pathOk s p t₁) (h₂ : g.pathOk s p t₂) : t₁ = t₂ := by
  induction p generalizing s with
  | nil =>
    simp only [pathOk_nil] at h₁ h₂
    omega
  | cons a p ih => exact ih h₁.2.2 h₂.2.2

theorem List.sum_map_flatMap {α β : Type} (l : List α) (F : α → List β) (f : β → ℝ) :
    ((l.flatMap F).map f).sum = (l.map fun a => ((F a).map f).sum).sum := by
  induction l with
  | nil => simp
  | cons a l ih => simp [List.flatMap_cons, List.map_append, List.sum_append, ih]

theorem Graph.pathExpSum_succ (g : Graph ℝ) (fuel t : Nat) :
    g.pathExpSum (fuel + 1) t
      = (if g.start t = true then 1 else 0)
        + ((g.inArcs t).map fun a =>
            g.pathExpSum fuel (g.upNode a) * Real.exp (g.weight a)).sum := by
  unfold Graph.pathExpSum
  simp only [Graph.pathsTo]
  rw [List.map_append, List.sum_append]
  congr 1
  · by_cases hs : g.start t = true
    · simp [hs, Graph.pathWeight]
    · simp only [Bool.not_eq_true] at hs
      simp [hs]
  · rw [List.sum_map_flatMap]
    refine congrArg List.sum (List.map_congr_left ?_)
    intro a ha
    rw [List.map_map]
    have hcomp : ((fun sp : Nat × List Nat => Real.exp (g.pathWeight sp.2))
          ∘ fun sp : Nat × List Nat => (sp.1, sp.2 ++ [a]))
        = fun sp : Nat × List Nat =>
            Real.exp (g.pathWeight sp.2) * Real.exp (g.weight a) := by
      funext sp
      simp [Function.comp, Graph.pathWeight, Real.exp_add]
    rw [hcomp, List.sum_map_mul_right]

theorem Graph.pathExpSum_stab (g : Graph ℝ) (hWF : g.WF) (hacy : g.Acyclic)
    {f₁ f₂ t : Nat} (h₁ : g.numNodes ≤ f₁) (h₂ : g.numNodes ≤ f₂) :
    g.pathExpSum f₁ t = g.pathExpSum f₂ t := by
  unfold Graph.pathExpSum
  refine List.Perm.sum_eq (List.Perm.map _ (g.pathsTo_perm ?_))
  intro s p hs hp
  have hslt : s < g.numNodes := Graph.lt_numNodes_of_start hs
  have := g.path_length_lt hWF hacy hslt hp
  omega

/-- Completeness of the Kahn walk: once the queue is empty, every node whose
in-degree-0 ancestors are all start nodes, and which is itself a start node or
has an in-arc, has been popped.  Strong induction on `rank`. -/
theorem kahn_mem_X {g : Graph ℝ} {X : List Nat} {st : FState ℝ}
    (hWF : g.WF) (hacy : g.Acyclic) (hinv : FInv g X st) (hq : st.queue = []) :
    ∀ r n, g.rank n ≤ r → n < g.numNodes →
      (∀ u, u < g.numNodes → g.numIn u = 0 → g.ReachesNE u n → g.start u = true) →
      (g.start n = true ∨ 0 < g.numIn n) → n ∈ X := by
  intro r
  induction r using Nat.strong_induction_on with
  | _ r ih =>
    intro n hrank hn hsrcn hdisj
    by_cases h0 : g.numIn n = 0
    · have hdeg := hinv.hdeg n hn
      have hcle : inCount g X [] n ≤ g.numIn n := List.length_filter_le _ _
      have hd0 : st.degrees.getD n 0 = 0 := by rw [hdeg]; omega
      have hmem := (hinv.hmem n hn).mpr ⟨hd0, hdisj⟩
      rw [hq] at hmem
      simpa using hmem
    · have hpos : 0 < g.numIn n := Nat.pos_of_ne_zero h0
      have hallX : ∀ a ∈ g.inArcs n, g.upNode a ∈ X := by
        intro a ha
        obtain ⟨haA, haD⟩ := g.mem_inArcs.mp ha
        have hup_lt : g.upNode a < g.numNodes := (hWF a haA).1
        have hrlt : g.rank (g.upNode a) < g.rank n := g.rank_lt hWF hacy haA haD
        have hsrcm : ∀ u, u < g.numNodes → g.numIn u = 0 →
            g.ReachesNE u (g.upNode a) → g.start u = true := by
          intro u hu hu0 hr
          obtain ⟨p, hpne, hpok⟩ := hr
          refine hsrcn u hu hu0 ⟨p ++ [a], by simp, ?_⟩
          rw [g.pathOk_append]
          exact ⟨g.upNode a, hpok, haA, rfl, haD⟩
        have hdisjm : g.start (g.upNode a) = true ∨ 0 < g.numIn (g.upNode a) := by
          by_cases hm0 : g.numIn (g.upNode a) = 0
          · exact Or.inl (hsrcn (g.upNode a) hup_lt hm0 ⟨[a], by simp, haA, rfl, haD⟩)
          · exact Or.inr (Nat.pos_of_ne_zero hm0)
        exact ih (g.rank (g.upNode a)) (by omega) _ le_rfl hup_lt hsrcm hdisjm
      have hfull : ((g.inArcs n).filter fun a =>
          decide (g.upNode a ∈ X) || decide (a ∈ ([] : List Nat))) = g.inArcs n := by
        apply List.filter_eq_self.mpr
        intro a ha
        simp [hallX a ha]
      have hd0 : st.degrees.getD n 0 = 0 := by
        have hdeg := hinv.hdeg n hn
        unfold inCount at hdeg
        rw [hfull] at hdeg
        rw [hdeg]
        simp [Graph.numIn]
      have hmem := (hinv.hmem n hn).mpr ⟨hd0, Or.inr hpos⟩
      rw [hq] at hmem
      simpa using hmem

/-- Score correctness of the Kahn walk: once the queue is empty, the score of
every node of residual in-degree `0` is (under `exp`) the sum of `exp` of the
weights of all start-to-node paths.  Strong induction on `rank`. -/
theorem kahn_score {g : Graph ℝ} {X : List Nat} {st : FState ℝ}
    (hWF : g.WF) (hacy : g.Acyclic) (hinv : FInv g X st) (hq : st.queue = []) :
    ∀ r n, g.rank n ≤ r → n < g.numNodes → st.degrees.getD n 0 = 0 →
      expO (st.scores.getD n none) = g.pathExpSum g.numNodes n := by
  intro r
  induction r using Nat.strong_induction_on with
  | _ r ih =>
    intro n hrank hn hd0
    have hdeg := hinv.hdeg n hn
    have hcnt : inCount g X [] n = g.numIn n := by omega
    have hcnt' : ((g.inArcs n).filter fun a =>
        decide (g.upNode a ∈ X) || decide (a ∈ ([] : List Nat))).length
          = (g.inArcs n).length := hcnt
    have hfull := List.filter_eq_self.mpr (List.filter_length_eq_length.mp hcnt')
    have hsc := hinv.hscore n hn
    rw [hfull] at hsc
    have hmap : ((g.inArcs n).map fun a =>
          expO (st.scores.getD (g.upNode a) none) * Real.exp (g.weight a))
        = (g.inArcs n).map fun a =>
            g.pathExpSum g.numNodes (g.upNode a) * Real.exp (g.weight a) := by
      apply List.map_congr_left
      intro a ha
      obtain ⟨haA, haD⟩ := g.mem_inArcs.mp ha
      have hup_lt : g.upNode a < g.numNodes := (hWF a haA).1
      have hupX : g.upNode a ∈ X := by
        have hmemf : a ∈ (g.inArcs n).filter fun a =>
            decide (g.upNode a ∈ X) || decide (a ∈ ([] : List Nat)) := by
          rw [hfull]; exact ha
        have := (List.mem_filter.mp hmemf).2
        simpa using this
      have hud0 : st.degrees.getD (g.upNode a) 0 = 0 := by
        have hm := (hinv.hmem (g.upNode a) hup_lt).mp (by rw [hq]; simpa using hupX)
        exact hm.1
      have hrlt : g.rank (g.upNode a) < g.rank n := g.rank_lt hWF hacy haA haD
      rw [ih (g.rank (g.upNode a)) (by omega) _ le_rfl hup_lt hud0]
    rw [hmap] at hsc
    rw [hsc, ← g.pathExpSum_succ]
    exact g.pathExpSum_stab hWF hacy (by omega) le_rfl

theorem expO_foldl_logadd (scores : List (Option ℝ)) (l : List Nat) (init : Option ℝ) :
    expO (l.foldl (fun s a => logadd s (scores.getD a none)) init)
      = expO init + (l.map fun a => expO (scores.getD a none)).sum := by
  induction l generalizing init with
  | nil => simp
  | cons a l ih =>
    rw [List.foldl_cons, ih, List.map_cons, List.sum_cons, expO_logadd]
    ring

theorem Graph.startAcceptPaths_sum (g : Graph ℝ) :
    ((g.startAcceptPaths.map fun sp => g.pathWeight sp.2).map Real.exp).sum
      = (g.acceptIds.map fun t => g.pathExpSum g.numNodes t).sum := by
  rw [List.map_map]
  unfold Graph.startAcceptPaths
  rw [List.sum_map_flatMap]
  rfl

theorem Graph.mem_startAcceptPaths (g : Graph ℝ) (hWF : g.WF) (hacy : g.Acyclic)
    (s : Nat) (p : List Nat) :
    (s, p) ∈ g.startAcceptPaths ↔ g.acceptPath s p := by
  unfold Graph.startAcceptPaths Graph.acceptPath
  simp only [List.mem_flatMap]
  constructor
  · rintro ⟨t, ht, hmem⟩
    obtain ⟨hs, hpok, -⟩ := g.mem_pathsTo.mp hmem
    have htacc : g.accept t = true := by
      have := (List.mem_filter.mp ht).2
      simpa using this
    exact ⟨hs, t, hpok, htacc⟩
  · rintro ⟨hs, t, hpok, htacc⟩
    have htlt : t < g.numNodes := Graph.lt_numNodes_of_accept htacc
    refine ⟨t, List.mem_filter.mpr ⟨List.mem_range.mpr htlt, by simp [htacc]⟩, ?_⟩
    refine g.mem_pathsTo.mpr ⟨hs, hpok, ?_⟩
    exact g.path_length_lt hWF hacy (Graph.lt_numNodes_of_start hs) hpok

theorem Graph.nodup_startAcceptPaths (g : Graph ℝ) : g.startAcceptPaths.Nodup := by
  unfold Graph.startAcceptPaths
  rw [List.nodup_flatMap]
  refine ⟨fun t ht => g.nodup_pathsTo _ _, ?_⟩
  have hnd : g.acceptIds.Nodup := List.Nodup.filter _ (List.nodup_range _)
  refine hnd.imp ?_
  intro t₁ t₂ hne
  intro x hx1 hx2
  obtain ⟨s, p⟩ := x
  obtain ⟨-, h1, -⟩ := g.mem_pathsTo.mp hx1
  obtain ⟨-, h2, -⟩ := g.mem_pathsTo.mp hx2
  exact hne (g.pathOk_target_eq h1 h2)

/-- Claim C3 counterexample: `gC3cx` is well-formed and acyclic and its accept
node is reachable from a start node, yet `forward` raises the cycle error
instead of returning the path log-sum-exp: node `1` has no in-arcs and is not
a start node, so it is never queued and the accept node `2` retains a positive
residual in-degree. -/
theorem C3_counterexample_forward_throws :
    (gC3cx.WF ∧ gC3cx.Acyclic ∧
        ∀ t, gC3cx.accept t = true →
          ∃ s p, gC3cx.start s = true ∧ gC3cx.pathOk s p t) ∧
      forward logadd gC3cx
        = Except.error "Graph has a cycle, self-loop or is disconnected!" := by
  refine ⟨⟨by decide, gC3cx.acyclic_of_increasing (by decide), ?_⟩, rfl⟩
  intro t hacc
  have htlt : t < 3 := Graph.lt_numNodes_of_accept hacc
  have hcases : t = 0 ∨ t = 1 ∨ t = 2 := by omega
  rcases hcases with rfl | rfl | rfl
  · exact absurd hacc (by decide)
  · exact absurd hacc (by decide)
  · exact ⟨0, [0], rfl, by decide⟩

/-- Claim C3 (amended): on a well-formed acyclic graph in which every
in-degree-0 ancestor of an accept node with at least one in-arc is a start
node, `forward` returns the item graph whose weight is the log-sum-exp of the
total weights of all start-to-accept paths; `startAcceptPaths` enumerates
exactly the start-to-accept paths, without duplicates. -/
theorem C3_forward_logsumexp (g : Graph ℝ) (hWF : g.WF) (hacy : g.Acyclic)
    (hsrc : ∀ t, g.accept t = true → 0 < g.numIn t →
      ∀ u, u < g.numNodes → g.numIn u = 0 → g.ReachesNE u t → g.start u = true) :
    forward logadd g = Except.ok
        (((Graph.emptyGraph.addNode true false).addNode false true).addArc 0 1 0 0
          (logSumExp (g.startAcceptPaths.map fun sp => g.pathWeight sp.2)))
      ∧ (∀ s p, (s, p) ∈ g.startAcceptPaths ↔ g.acceptPath s p)
      ∧ g.startAcceptPaths.Nodup := by
  refine ⟨?_, fun s p => g.mem_startAcceptPaths hWF hacy s p, g.nodup_startAcceptPaths⟩
  obtain ⟨X', hinv, hq⟩ :=
    forwardLoop_inv hWF g.numNodes [] (forwardInit g) (finv_init g) (by simp)
  have hdeg0 : ∀ t ∈ g.acceptIds,
      (forwardLoop g logadd g.numNodes (forwardInit g)).degrees.getD t 0 = 0 := by
    intro t ht
    have htlt : t < g.numNodes := List.mem_range.mp (List.mem_filter.mp ht).1
    have htacc : g.accept t = true := by
      have := (List.mem_filter.mp ht).2
      simpa using this
    by_cases h0 : g.numIn t = 0
    · have hdeg := hinv.hdeg t htlt
      have hcle : inCount g X' [] t ≤ g.numIn t := List.length_filter_le _ _
      rw [hdeg]; omega
    · have hpos : 0 < g.numIn t := Nat.pos_of_ne_zero h0
      have hmemX : t ∈ X' := kahn_mem_X hWF hacy hinv hq (g.rank t) t le_rfl htlt
        (hsrc t htacc hpos) (Or.inr hpos)
      exact ((hinv.hmem t htlt).mp (by rw [hq]; simpa using hmemX)).1
  have hall : (g.acceptIds.all fun a =>
      decide ((forwardLoop g logadd g.numNodes (forwardInit g)).degrees.getD a 0 ≤ 0))
        = true := by
    rw [List.all_eq_true]
    intro t ht
    exact decide_eq_true (by rw [hdeg0 t ht])
  have hsum : expO (g.acceptIds.foldl (fun s a =>
        logadd s ((forwardLoop g logadd g.numNodes (forwardInit g)).scores.getD a none)) none)
      = ((g.startAcceptPaths.map fun sp => g.pathWeight sp.2).map Real.exp).sum := by
    rw [expO_foldl_logadd, g.startAcceptPaths_sum, expO_none, zero_add]
    refine congrArg List.sum (List.map_congr_left ?_)
    intro t ht
    have htlt : t < g.numNodes := List.mem_range.mp (List.mem_filter.mp ht).1
    exact kahn_score hWF hacy hinv hq (g.rank t) t le_rfl htlt (hdeg0 t ht)
  have hscore_eq : (g.acceptIds.foldl (fun s a =>
        logadd s ((forwardLoop g logadd g.numNodes (forwardInit g)).scores.getD a none)) none)
      = logSumExp (g.startAcceptPaths.map fun sp => g.pathWeight sp.2) := by
    unfold logSumExp
    by_cases hemp : (g.startAcceptPaths.map fun sp => g.pathWeight sp.2) = []
    · rw [if_pos hemp]
      refine (expO_eq_zero_iff _).mp ?_
      rw [hsum, hemp]
      simp
    · rw [if_neg hemp]
      have hpos : 0 < (((g.startAcceptPaths.map fun sp => g.pathWeight sp.2)).map
          Real.exp).sum := by
        apply List.sum_pos
        · intro x hx
          obtain ⟨w, -, rfl⟩ := List.mem_map.mp hx
          exact Real.exp_pos w
        · simpa using hemp
      cases hfold : g.acceptIds.foldl (fun s a =>
          logadd s ((forwardLoop g logadd g.numNodes (forwardInit g)).scores.getD a none))
            none with
      | none =>
        exfalso
        have h0 := hsum
        rw [hfold, expO_none] at h0
        linarith
      | some x =>
        have hx : Real.exp x = (((g.startAcceptPaths.map fun sp =>
            g.pathWeight sp.2)).map Real.exp).sum := by
          have h0 := hsum
          rw [hfold, expO_some] at h0
          exact h0
        have hlog : x = Real.log ((((g.startAcceptPaths.map fun sp =>
            g.pathWeight sp.2)).map Real.exp).sum) := by
          rw [← hx, Real.log_exp]
        rw [hlog]
  simp only [forward]
  rw [hall]
  simp only [reduceIte]
  rw [hscore_eq]

/-- Claim C3 (amended) witness: the chain `0 → 1 → 2` satisfies the
hypotheses (its only in-degree-0 node is the start node `0`) and `forward`
returns the log-sum-exp of its start-to-accept path weights. -/
theorem C3_forward_logsumexp_witness :
    (gC3w.WF ∧ gC3w.Acyclic) ∧
      (forward logadd gC3w = Except.ok
          (((Graph.emptyGraph.addNode true false).addNode false true).addArc 0 1 0 0
            (logSumExp (gC3w.startAcceptPaths.map fun sp => gC3w.pathWeight sp.2)))
        ∧ (∀ s p, (s, p) ∈ gC3w.startAcceptPaths ↔ gC3w.acceptPath s p)
        ∧ gC3w.startAcceptPaths.Nodup) := by
  have hWF : gC3w.WF := by decide
  have hacy : gC3w.Acyclic := gC3w.acyclic_of_increasing (by decide)
  have hsrc : ∀ t, gC3w.accept t = true → 0 < gC3w.numIn t →
      ∀ u, u < gC3w.numNodes → gC3w.numIn u = 0 → gC3w.ReachesNE u t →
        gC3w.start u = true := by
    intro t _ _ u hu hu0 _
    have h3 : u < 3 := hu
    have hcases : u = 0 ∨ u = 1 ∨ u = 2 := by omega
    rcases hcases with rfl | rfl | rfl
    · rfl
    · exact absurd hu0 (by decide)
    · exact absurd hu0 (by decide)
  exact ⟨⟨hWF, hacy⟩, C3_forward_logsumexp gC3w hWF hacy hsrc⟩

theorem filter_in_eq_push [Zero W] (g : Graph W) (X : List Nat) (n : Nat) (u : Nat) :
    ((g.outArcs u).filter fun a => decide (g.downNode a ∈ X) || decide (a ∈ g.inArcs n))
      = ((g.outArcs u).filter fun a =>
          decide (g.downNode a ∈ X ++ [n]) || decide (a ∈ ([] : List Nat))) := by
  apply List.filter_congr
  intro a ha
  have haA : a < g.numArcs := (g.mem_outArcs.mp ha).1
  rw [← Bool.decide_or, ← Bool.decide_or, decide_eq_decide]
  simp only [g.mem_inArcs, List.mem_append, List.mem_singleton, List.not_mem_nil,
    or_false]
  tauto

theorem ginv_to_mid {g : Graph ℝ} {scores : List ℝ} {output d : ℝ} {X : List Nat}
    {N A : List ℝ} {D : List Int} {n : Nat} {rest : List Nat}
    (h : GInv g scores output d X ⟨N, A, D, n :: rest⟩) :
    GMidInv g scores output d X n (scores.getD n 0) (N.getD n 0) []
      ⟨N, A, D, rest⟩ := by
  obtain ⟨h1, h2, h3, h4, h5, h6, h7, h8, h9, h10⟩ := h
  have hring : X ++ n :: rest = (X ++ [n]) ++ rest := by simp
  rw [hring] at h4 h5 h7
  have hnlt : n < g.numNodes := h5 n (by simp)
  have hd0 := ((h7 n hnlt).mp (by simp)).1
  have h6n := h6 n hnlt
  rw [h6n] at hd0
  have hcnt : outCount g X [] n = g.numOut n := by omega
  have hpop : ∀ a ∈ g.outArcs n, g.downNode a ∈ X := by
    have hcnt' : ((g.outArcs n).filter fun a =>
        decide (g.downNode a ∈ X) || decide (a ∈ ([] : List Nat))).length
          = (g.outArcs n).length := hcnt
    have hall := List.filter_length_eq_length.mp hcnt'
    intro a ha
    have := hall a ha
    simpa using this
  exact ⟨h1, h2, h3, h4, h5, by simp, hpop, h6, h7, rfl, by simp, h8,
    fun a haA hx _ => h9 a haA hx, h10⟩

theorem mid_to_ginv {g : Graph ℝ} {scores : List ℝ} {output d : ℝ} {X : List Nat}
    {n : Nat} {gn : ℝ} {st : GState}
    (h : GMidInv g scores output d X n (scores.getD n 0) gn (g.inArcs n) st) :
    GInv g scores output d (X ++ [n]) st := by
  obtain ⟨h1, h2, h3, h4, h5, -, -, h8, h9, h10, h11, h12, h13, h14⟩ := h
  refine ⟨h1, h2, h3, h4, h5, ?_, h9, ?_, ?_, ?_⟩
  · intro u hu
    rw [h8 u hu]
    unfold outCount
    rw [filter_in_eq_push]
  · intro a haA hmemX
    rcases List.mem_append.mp hmemX with hmemX | hmemX
    · exact h12 a haA hmemX
    · have hdn : g.downNode a = n := List.mem_singleton.mp hmemX
      have hain : a ∈ g.inArcs n := g.mem_inArcs.mpr ⟨haA, hdn⟩
      rw [h11 a hain, hdn, h10]
  · intro a haA hmemX
    refine h13 a haA (fun hc => hmemX (by simp [hc])) ?_
    intro hc
    exact hmemX (by simp [(g.mem_inArcs.mp hc).2])
  · intro u hu
    rw [h14 u hu, filter_in_eq_push]

/-- One in-arc relaxation preserves the mid-pop invariant of the reverse
walk. -/
theorem gmid_step {g : Graph ℝ} {scores : List ℝ} {output d : ℝ} {X : List Nat}
    {n : Nat} {sc gn : ℝ} {done : List Nat} {st : GState}
    (hWF : g.WF) (h : GMidInv g scores output d X n sc gn done st) {a : Nat}
    (ha : a ∈ g.inArcs n) (hnd : a ∉ done) :
    GMidInv g scores output d X n sc gn (done ++ [a]) (gradRelax g scores sc gn st a) := by
  obtain ⟨h1, h2, h3, h4, h5, h6, h7, h8, h9, h10, h11, h12, h13, h14⟩ := h
  obtain ⟨haA, haD⟩ := g.mem_inArcs.mp ha
  have hunlt : g.upNode a < g.numNodes := (hWF a haA).1
  have hane : a ∈ g.outArcs (g.upNode a) := g.mem_outArcs.mpr ⟨haA, rfl⟩
  have houtnd : ∀ m : Nat, (g.outArcs m).Nodup :=
    fun m => List.Nodup.filter _ (List.nodup_range _)
  have hnlt : n < g.numNodes := h5 n (by simp)
  have hnnotX : n ∉ X := by
    intro hmemX
    have hnd2 : (X ++ [n]).Nodup := (List.nodup_append.mp h4).1
    exact (List.nodup_append.mp hnd2).2.2 hmemX (List.mem_singleton_self n)
  have hpred_a : (decide (g.downNode a ∈ X) || decide (a ∈ done)) = false := by
    simp [haD, hnnotX, hnd]
  have hcount_lt : outCount g X done (g.upNode a) < g.numOut (g.upNode a) := by
    unfold outCount Graph.numOut
    have hlt := List.length_filter_lt
      (p := fun x => decide (g.downNode x ∈ X) || decide (x ∈ done))
      (q := fun _ => true) (fun x _ _ => rfl) hane hpred_a rfl
    simpa [List.filter_true] using hlt
  have hdeg_un : st.degrees.getD (g.upNode a) 0
      = (g.numOut (g.upNode a) : Int) - (outCount g X done (g.upNode a) : Int) :=
    h8 _ hunlt
  have hdeg_pos : 1 ≤ st.degrees.getD (g.upNode a) 0 := by
    rw [hdeg_un]; omega
  have hun_not : g.upNode a ∉ (X ++ [n]) ++ st.queue := by
    intro hmem1
    have hz := ((h9 _ hunlt).mp hmem1).1
    omega
  have hunX : g.upNode a ∉ X := fun hc => hun_not (by simp [hc])
  have hunN : g.upNode a ≠ n := fun hc => hun_not (by simp [hc])
  have hfilter_ne : ∀ u, u ≠ g.upNode a →
      ((g.outArcs u).filter fun b => decide (g.downNode b ∈ X) || decide (b ∈ done ++ [a]))
        = ((g.outArcs u).filter fun b => decide (g.downNode b ∈ X) || decide (b ∈ done)) := by
    intro u hne
    apply List.filter_congr
    intro b hb
    have hba : b ≠ a := by
      intro hba
      subst hba
      exact hne ((g.mem_outArcs.mp hb).2.symm)
    simp [List.mem_append, hba]
  have hb_ne_a : ∀ b : Nat,
      (decide (g.downNode b ∈ X) || decide (b ∈ done)) = true → b ≠ a := by
    intro b hb hba
    subst hba
    rw [hpred_a] at hb
    exact Bool.false_ne_true hb
  have hdone2 : ∀ b ∈ done ++ [a], b ∈ g.inArcs n := by
    intro b hb
    rcases List.mem_append.mp hb with hb | hb
    · exact h6 b hb
    · rw [List.mem_singleton.mp hb]; exact ha
  have hsucc : outCount g X (done ++ [a]) (g.upNode a)
      = outCount g X done (g.upNode a) + 1 := by
    unfold outCount
    refine List.length_filter_succ
      (p := fun x => decide (g.downNode x ∈ X) || decide (x ∈ done))
      (q := fun x => decide (g.downNode x ∈ X) || decide (x ∈ done ++ [a]))
      (houtnd _) hane hpred_a (by simp) ?_
    intro b hb hba
    simp [List.mem_append, hba]
  have hnumOut_pos : 0 < g.numOut (g.upNode a) := by
    unfold Graph.numOut
    exact List.length_pos.mpr (fun hc => by simp [hc] at hane)
  -- facts about the updated lists, common to both queue cases
  have hgn2 : (st.nodeGrads.set (g.upNode a) (st.nodeGrads.getD (g.upNode a) 0
        + gn * Real.exp (g.weight a + scores.getD (g.upNode a) 0 - sc))).getD n 0 = gn := by
    rw [List.getD_set_ne _ hunN _ _]
    exact h10
  have hdoneval2 : ∀ b ∈ done ++ [a],
      (st.arcGrads.set a (gn * Real.exp (g.weight a + scores.getD (g.upNode a) 0 - sc))).getD b 0
        = gn * Real.exp (g.weight b + scores.getD (g.upNode b) 0 - sc) := by
    intro b hb
    rcases List.mem_append.mp hb with hb | hb
    · have hba : b ≠ a := fun hc => hnd (hc ▸ hb)
      rw [List.getD_set_ne _ (Ne.symm hba) _ _]
      exact h11 b hb
    · rw [List.mem_singleton.mp hb]
      rw [List.getD_set_self _ (by omega) _ _]
  have harcX2 : ∀ b, b < g.numArcs → g.downNode b ∈ X →
      (st.arcGrads.set a (gn * Real.exp (g.weight a + scores.getD (g.upNode a) 0 - sc))).getD b 0
        = (st.nodeGrads.set (g.upNode a) (st.nodeGrads.getD (g.upNode a) 0
            + gn * Real.exp (g.weight a + scores.getD (g.upNode a) 0 - sc))).getD (g.downNode b) 0
          * Real.exp (g.weight b + scores.getD (g.upNode b) 0
              - scores.getD (g.downNode b) 0) := by
    intro b hbA hbX
    have hba : b ≠ a := by
      intro hc
      rw [hc, haD] at hbX
      exact hnnotX hbX
    have hdb_ne : g.downNode b ≠ g.upNode a := fun hc => hunX (hc ▸ hbX)
    rw [List.getD_set_ne _ (Ne.symm hba) _ _, List.getD_set_ne _ (Ne.symm hdb_ne) _ _]
    exact h12 b hbA hbX
  have harc02 : ∀ b, b < g.numArcs → g.downNode b ∉ X → b ∉ done ++ [a] →
      (st.arcGrads.set a (gn * Real.exp (g.weight a + scores.getD (g.upNode a) 0 - sc))).getD b 0
        = 0 := by
    intro b hbA hbX hbd
    have hba : b ≠ a := fun hc => hbd (by simp [hc])
    rw [List.getD_set_ne _ (Ne.symm hba) _ _]
    exact h13 b hbA hbX (fun hc => hbd (by simp [hc]))
  have hgrad2 : ∀ u, u < g.numNodes →
      (st.nodeGrads.set (g.upNode a) (st.nodeGrads.getD (g.upNode a) 0
          + gn * Real.exp (g.weight a + scores.getD (g.upNode a) 0 - sc))).getD u 0
        = (if g.accept u = true then d * Real.exp (scores.getD u 0 - output) else 0)
          + (((g.outArcs u).filter fun b =>
                decide (g.downNode b ∈ X) || decide (b ∈ done ++ [a])).map
              fun b => (st.arcGrads.set a
                (gn * Real.exp (g.weight a + scores.getD (g.upNode a) 0 - sc))).getD b 0).sum := by
    intro u hu
    by_cases hun : u = g.upNode a
    · subst hun
      rw [List.getD_set_self _ (by omega) _ _]
      rw [List.sum_filter_succ
        (p := fun x => decide (g.downNode x ∈ X) || decide (x ∈ done))
        (q := fun x => decide (g.downNode x ∈ X) || decide (x ∈ done ++ [a]))
        (f := fun b => (st.arcGrads.set a
          (gn * Real.exp (g.weight a + scores.getD (g.upNode a) 0 - sc))).getD b 0)
        (houtnd _) hane hpred_a (by simp) (by intro b hb hba; simp [List.mem_append, hba])]
      have hfa : (st.arcGrads.set a
          (gn * Real.exp (g.weight a + scores.getD (g.upNode a) 0 - sc))).getD a 0
            = gn * Real.exp (g.weight a + scores.getD (g.upNode a) 0 - sc) :=
        List.getD_set_self _ (by omega) _ _
      have hmap : ((g.outArcs (g.upNode a)).filter
            fun x => decide (g.downNode x ∈ X) || decide (x ∈ done)).map
              (fun b => (st.arcGrads.set a
                (gn * Real.exp (g.weight a + scores.getD (g.upNode a) 0 - sc))).getD b 0)
          = ((g.outArcs (g.upNode a)).filter
            fun x => decide (g.downNode x ∈ X) || decide (x ∈ done)).map
              (fun b => st.arcGrads.getD b 0) := by
        apply List.map_congr_left
        intro b hb
        have hbp := (List.mem_filter.mp hb).2
        rw [List.getD_set_ne _ (Ne.symm (hb_ne_a b hbp)) _ _]
      rw [hfa, hmap, h14 _ hunlt]
      ring
    · rw [List.getD_set_ne _ (fun hc => hun hc.symm) _ _, h14 u hu, hfilter_ne u hun]
      congr 1
      apply congrArg
      apply List.map_congr_left
      intro b hb
      have hba : b ≠ a := by
        intro hc
        subst hc
        exact hun ((g.mem_outArcs.mp (List.mem_filter.mp hb).1).2.symm)
      rw [List.getD_set_ne _ (Ne.symm hba) _ _]
  have hdeg2 : ∀ u, u < g.numNodes →
      (st.degrees.set (g.upNode a) (st.degrees.getD (g.upNode a) 0 - 1)).getD u 0
        = (g.numOut u : Int) - (outCount g X (done ++ [a]) u : Int) := by
    intro u hu
    by_cases hun : u = g.upNode a
    · subst hun
      rw [List.getD_set_self _ (by omega) _ _, hsucc, hdeg_un]
      push_cast
      ring
    · rw [List.getD_set_ne _ (fun hc => hun hc.symm) _ _, h8 u hu]
      unfold outCount
      rw [hfilter_ne u hun]
  by_cases hpush : st.degrees.getD (g.upNode a) 0 - 1 = 0
  · -- the out-degree of the source reaches zero: it is pushed
    have hshape : gradRelax g scores sc gn st a
        = ⟨st.nodeGrads.set (g.upNode a) (st.nodeGrads.getD (g.upNode a) 0
              + gn * Real.exp (g.weight a + scores.getD (g.upNode a) 0 - sc)),
          st.arcGrads.set a (gn * Real.exp (g.weight a + scores.getD (g.upNode a) 0 - sc)),
          st.degrees.set (g.upNode a) (st.degrees.getD (g.upNode a) 0 - 1),
          st.queue ++ [g.upNode a]⟩ := by
      simp only [gradRelax, hpush, reduceIte]
    rw [hshape]
    have hassoc : (X ++ [n]) ++ (st.queue ++ [g.upNode a])
        = ((X ++ [n]) ++ st.queue) ++ [g.upNode a] := by simp
    refine ⟨by simp [h1], by simp [h2], by simp [h3], ?_, ?_, hdone2, h7, hdeg2, ?_,
      hgn2, hdoneval2, harcX2, harc02, hgrad2⟩
    · rw [hassoc]
      refine List.Nodup.append h4 (by simp) ?_
      intro x hx hx1
      rw [List.mem_singleton.mp hx1] at hx
      exact hun_not hx
    · intro m hm
      rw [hassoc] at hm
      rcases List.mem_append.mp hm with hm | hm
      · exact h5 m hm
      · rw [List.mem_singleton.mp hm]; exact hunlt
    · intro u hu
      rw [hassoc]
      by_cases hun : u = g.upNode a
      · subst hun
        rw [hdeg2 _ hu]
        constructor
        · intro _
          refine ⟨?_, Or.inr hnumOut_pos⟩
          rw [← hdeg2 _ hu, List.getD_set_self _ (by omega) _ _]
          exact hpush
        · intro _
          simp
      · rw [List.mem_append, List.getD_set_ne _ (fun hc => hun hc.symm) _ _]
        constructor
        · rintro (hmem1 | hmem1)
          · exact (h9 u hu).mp hmem1
          · exact absurd (List.mem_singleton.mp hmem1) hun
        · intro hrhs
          exact Or.inl ((h9 u hu).mpr hrhs)
  · -- no push
    have hshape : gradRelax g scores sc gn st a
        = ⟨st.nodeGrads.set (g.upNode a) (st.nodeGrads.getD (g.upNode a) 0
              + gn * Real.exp (g.weight a + scores.getD (g.upNode a) 0 - sc)),
          st.arcGrads.set a (gn * Real.exp (g.weight a + scores.getD (g.upNode a) 0 - sc)),
          st.degrees.set (g.upNode a) (st.degrees.getD (g.upNode a) 0 - 1),
          st.queue⟩ := by
      simp only [gradRelax, hpush, reduceIte]
    rw [hshape]
    refine ⟨by simp [h1], by simp [h2], by simp [h3], h4, h5, hdone2, h7, hdeg2, ?_,
      hgn2, hdoneval2, harcX2, harc02, hgrad2⟩
    intro u hu
    by_cases hun : u = g.upNode a
    · subst hun
      rw [hdeg2 _ hu]
      constructor
      · intro hmem1
        exact absurd hmem1 hun_not
      · rintro ⟨hz, -⟩
        rw [← hdeg2 _ hu, List.getD_set_self _ (by omega) _ _] at hz
        exact absurd hz hpush
    · rw [List.getD_set_ne _ (fun hc => hun hc.symm) _ _]
      exact h9 u hu

/-- Folding the relaxation over the remaining in-arcs completes the pop. -/
theorem gmid_fold {g : Graph ℝ} {scores : List ℝ} {output d : ℝ} {X : List Nat}
    {n : Nat} {sc gn : ℝ} (hWF : g.WF) :
    ∀ (A done : List Nat) (st : GState), g.inArcs n = done ++ A →
      GMidInv g scores output d X n sc gn done st →
      GMidInv g scores output d X n sc gn (g.inArcs n)
        (A.foldl (gradRelax g scores sc gn) st) := by
  intro A
  induction A with
  | nil =>
    intro done st heq h
    rw [List.append_nil] at heq
    rw [heq]
    simpa using h
  | cons a A ih =>
    intro done st heq h
    have hnd : (g.inArcs n).Nodup := List.Nodup.filter _ (List.nodup_range _)
    have hamem : a ∈ g.inArcs n := by rw [heq]; simp
    have hadone : a ∉ done := by
      rw [heq] at hnd
      rcases List.nodup_append.mp hnd with ⟨-, -, hdisj⟩
      intro hc
      exact hdisj hc (by simp)
    have hstep := gmid_step hWF h hamem hadone
    have heq' : g.inArcs n = (done ++ [a]) ++ A := by rw [heq]; simp
    exact ih (done ++ [a]) _ heq' hstep

/-- Running the reverse loop with enough fuel from an invariant state drains
the queue and preserves the invariant. -/
theorem forwardGradLoop_inv {g : Graph ℝ} {scores : List ℝ} {output d : ℝ}
    (hWF : g.WF) :
    ∀ (fuel : Nat) (X : List Nat) (st : GState), GInv g scores output d X st →
      g.numNodes ≤ fuel + X.length →
      ∃ X', GInv g scores output d X' (forwardGradLoop g scores fuel st)
        ∧ (forwardGradLoop g scores fuel st).queue = [] := by
  intro fuel
  induction fuel with
  | zero =>
    intro X st h hfuel
    have hlen : (X ++ st.queue).length ≤ g.numNodes :=
      List.nodup_length_le_of_lt h.hbound h.hnodup
    rw [List.length_append] at hlen
    have hq : st.queue = [] := by
      have hq0 : st.queue.length = 0 := by omega
      exact List.length_eq_zero.mp hq0
    exact ⟨X, h, hq⟩
  | succ fuel ih =>
    intro X st h hfuel
    obtain ⟨N, A, D, Q⟩ := st
    cases Q with
    | nil => exact ⟨X, h, rfl⟩
    | cons n rest =>
      have hmid0 := ginv_to_mid h
      have hmid := gmid_fold hWF (g.inArcs n) [] ⟨N, A, D, rest⟩ (by simp) hmid0
      have hinv' := mid_to_ginv hmid
      have hfuel' : g.numNodes ≤ fuel + (X ++ [n]).length := by
        simp only [List.length_append, List.length_singleton]
        omega
      exact ih (X ++ [n]) _ hinv' hfuel'

/-- The initial state of `forwardGrad` satisfies the invariant with no node
popped. -/
theorem ginv_init (g : Graph ℝ) (scores : List ℝ) (output d : ℝ) :
    GInv g scores output d [] (forwardGradInit g output d scores) := by
  refine ⟨by simp [forwardGradInit], by simp [forwardGradInit],
    by simp [forwardGradInit], ?_, ?_, ?_, ?_, ?_, ?_, ?_⟩
  · simp only [List.nil_append, forwardGradInit]
    exact List.Nodup.filter _ (List.Nodup.filter _ (List.nodup_range _))
  · intro n hn
    simp only [List.nil_append, forwardGradInit] at hn
    exact List.mem_range.mp (List.mem_filter.mp (List.mem_filter.mp hn).1).1
  · intro n hn
    have hg : ((List.range g.numNodes).map fun n => (g.numOut n : Int)).getD n 0
        = (g.numOut n : Int) := getD_map_range hn _ _
    have hc : outCount g [] [] n = 0 := by
      unfold outCount
      have he : ((g.outArcs n).filter fun a =>
          decide (g.downNode a ∈ ([] : List Nat)) || decide (a ∈ ([] : List Nat))) = [] := by
        simp
      rw [he]
      rfl
    simp only [forwardGradInit]
    rw [hg, hc]
    simp
  · intro n hn
    simp only [List.nil_append, forwardGradInit]
    have hg : ((List.range g.numNodes).map fun n => (g.numOut n : Int)).getD n 0
        = (g.numOut n : Int) := getD_map_range hn _ _
    rw [hg]
    constructor
    · intro hmem1
      have h1' := List.mem_filter.mp hmem1
      have h2' := List.mem_filter.mp h1'.1
      have h3' : g.numOut n = 0 := by simpa using h1'.2
      refine ⟨by simp [h3'], Or.inl (by simpa using h2'.2)⟩
    · rintro ⟨hz, hor⟩
      have h3' : g.numOut n = 0 := by exact_mod_cast hz
      have hacc : g.accept n = true := by
        rcases hor with hor | hor
        · exact hor
        · omega
      refine List.mem_filter.mpr ⟨?_, by simp [h3']⟩
      exact List.mem_filter.mpr ⟨List.mem_range.mpr hn, by simp [hacc]⟩
  · intro a haA hmemX
    exact absurd hmemX (List.not_mem_nil _)
  · intro a haA hx
    simp only [forwardGradInit]
    exact getD_map_range haA _ _
  · intro n hn
    simp only [forwardGradInit]
    have hg : ((List.range g.numNodes).map fun n =>
        if g.accept n then d * Real.exp (scores.getD n 0 - output) else 0).getD n 0
          = (if g.accept n then d * Real.exp (scores.getD n 0 - output) else 0) :=
      getD_map_range hn _ _
    rw [hg]
    have hfil : ((g.outArcs n).filter fun a =>
        decide (g.downNode a ∈ ([] : List Nat)) || decide (a ∈ ([] : List Nat))) = [] := by
      simp
    rw [hfil]
    simp

theorem Graph.coRank_lt [Zero W] (g : Graph W) (hWF : g.WF) (hacy : g.Acyclic)
    {n a : Nat} (haA : a < g.numArcs) (haU : g.upNode a = n) :
    g.coRank (g.downNode a) < g.coRank n := by
  have hdn_lt : g.downNode a < g.numNodes := (hWF a haA).2
  unfold Graph.coRank
  refine List.length_filter_lt ?_ (List.mem_range.mpr hdn_lt) ?_ ?_
  · intro m hm hpm
    simp only [decide_eq_true_eq] at hpm ⊢
    obtain ⟨p, hpne, hpok⟩ := hpm
    exact ⟨a :: p, by simp, haA, haU, hpok⟩
  · simp only [decide_eq_false_iff_not]
    rintro ⟨p, hpne, hpok⟩
    exact hacy _ p hpne hpok
  · simp only [decide_eq_true_eq]
    exact ⟨[a], by simp, haA, haU, rfl⟩

/-- Completeness of the reverse walk: if every sink is an accept node, the
drained walk has popped every node.  Strong induction on `coRank`. -/
theorem gwalk_complete {g : Graph ℝ} {scores : List ℝ} {output d : ℝ}
    {X : List Nat} {st : GState} (hWF : g.WF) (hacy : g.Acyclic)
    (hinv : GInv g scores output d X st) (hq : st.queue = [])
    (hsink : ∀ n < g.numNodes, g.numOut n = 0 → g.accept n = true) :
    ∀ r n, g.coRank n ≤ r → n < g.numNodes → n ∈ X := by
  intro r
  induction r using Nat.strong_induction_on with
  | _ r ih =>
    intro n hrank hn
    by_cases h0 : g.numOut n = 0
    · have hdeg := hinv.hdeg n hn
      have hcle : outCount g X [] n ≤ g.numOut n := List.length_filter_le _ _
      have hd0 : st.degrees.getD n 0 = 0 := by rw [hdeg]; omega
      have hmem := (hinv.hmem n hn).mpr ⟨hd0, Or.inl (hsink n hn h0)⟩
      rw [hq] at hmem
      simpa using hmem
    · have hpos : 0 < g.numOut n := Nat.pos_of_ne_zero h0
      have hallX : ∀ a ∈ g.outArcs n, g.downNode a ∈ X := by
        intro a ha
        obtain ⟨haA, haU⟩ := g.mem_outArcs.mp ha
        have hdn_lt : g.downNode a < g.numNodes := (hWF a haA).2
        have hrlt : g.coRank (g.downNode a) < g.coRank n := g.coRank_lt hWF hacy haA haU
        exact ih (g.coRank (g.downNode a)) (by omega) _ le_rfl hdn_lt
      have hfull : ((g.outArcs n).filter fun a =>
          decide (g.downNode a ∈ X) || decide (a ∈ ([] : List Nat))) = g.outArcs n := by
        apply List.filter_eq_self.mpr
        intro a ha
        simp [hallX a ha]
      have hd0 : st.degrees.getD n 0 = 0 := by
        have hdeg := hinv.hdeg n hn
        unfold outCount at hdeg
        rw [hfull] at hdeg
        rw [hdeg]
        simp [Graph.numOut]
      have hmem := (hinv.hmem n hn).mpr ⟨hd0, Or.inr hpos⟩
      rw [hq] at hmem
      simpa using hmem

/-- Claim C4 (amended): on a well-formed acyclic graph whose every sink node
is an accept node, the completed reverse walk satisfies the claimed gradient
equations: every arc gradient is the target's node gradient times
`exp(weight + score[src] - score[dst])`, and every node gradient is its
accept seed plus the sum of its out-arc gradients. -/
theorem C4_forwardGrad_equations (g : Graph ℝ) (scores : List ℝ) (output d : ℝ)
    (hWF : g.WF) (hacy : g.Acyclic)
    (hsink : ∀ n < g.numNodes, g.numOut n = 0 → g.accept n = true) :
    (∀ a < g.numArcs,
        (forwardGrad g output d scores).1.getD a 0
          = (forwardGrad g output d scores).2.getD (g.downNode a) 0
            * Real.exp (g.weight a + scores.getD (g.upNode a) 0
                - scores.getD (g.downNode a) 0))
      ∧ (∀ n < g.numNodes,
          (forwardGrad g output d scores).2.getD n 0
            = (if g.accept n = true then d * Real.exp (scores.getD n 0 - output) else 0)
              + ((g.outArcs n).map
                  fun a => (forwardGrad g output d scores).1.getD a 0).sum) := by
  obtain ⟨X', hinv, hq⟩ := forwardGradLoop_inv hWF g.numNodes []
    (forwardGradInit g output d scores) (ginv_init g scores output d) (by simp)
  have hX : ∀ n, n < g.numNodes → n ∈ X' := fun n hn =>
    gwalk_complete hWF hacy hinv hq hsink (g.coRank n) n le_rfl hn
  constructor
  · intro a haA
    have hdn_lt : g.downNode a < g.numNodes := (hWF a haA).2
    exact hinv.harcX a haA (hX _ hdn_lt)
  · intro n hn
    have hd0 := ((hinv.hmem n hn).mp (by rw [hq]; simpa using hX n hn)).1
    have hdeg := hinv.hdeg n hn
    rw [hdeg] at hd0
    have hcnt : outCount g X' [] n = g.numOut n := by omega
    have hcnt' : ((g.outArcs n).filter fun a =>
        decide (g.downNode a ∈ X') || decide (a ∈ ([] : List Nat))).length
          = (g.outArcs n).length := hcnt
    have hfull := List.filter_eq_self.mpr (List.filter_length_eq_length.mp hcnt')
    have hgr := hinv.hgrad n hn
    rw [hfull] at hgr
    exact hgr

/-- Claim C4 counterexample: on `gC4cx`, `forward` succeeds with score `0`
and scores `[0,0,0]`, but `forwardGrad` (with that output, seed `1` and those
scores) stalls — the only accept node has an out-arc and the sink `2` is not
an accept node, so nothing is ever queued — leaving arc gradient `0` on arc
`0` where the claimed formula gives `nodeGrad[1] * exp(0) = 1`. -/
theorem C4_counterexample_stalled_walk :
    (gC4cx.WF ∧ gC4cx.Acyclic ∧
        forward logadd gC4cx = Except.ok
          (((Graph.emptyGraph.addNode true false).addNode false true).addArc 0 1 0 0
            (some 0))) ∧
      (forwardGrad gC4cx 0 1 [0, 0, 0]).1.getD 0 0
        ≠ (forwardGrad gC4cx 0 1 [0, 0, 0]).2.getD (gC4cx.downNode 0) 0
          * Real.exp (gC4cx.weight 0 + [(0 : ℝ), 0, 0].getD (gC4cx.upNode 0) 0
              - [(0 : ℝ), 0, 0].getD (gC4cx.downNode 0) 0) := by
  refine ⟨⟨by decide, gC4cx.acyclic_of_increasing (by decide), ?_⟩, ?_⟩
  · have h : forward logadd gC4cx
        = Except.ok (((Graph.emptyGraph.addNode true false).addNode false true).addArc 0 1 0 0
            (some ((0 : ℝ) + 0))) := rfl
    rw [h]
    norm_num
  · have h5 : gC4cx.downNode 0 = 1 := rfl
    have h4 : gC4cx.upNode 0 = 0 := rfl
    have h3 : gC4cx.weight 0 = 0 := rfl
    rw [h5, h4, h3]
    have h1 : (forwardGrad gC4cx 0 1 [0, 0, 0]).1.getD 0 0 = 0 := rfl
    have h2 : (forwardGrad gC4cx 0 1 [0, 0, 0]).2.getD 1 0
        = 1 * Real.exp ((0 : ℝ) - 0) := rfl
    rw [h1, h2]
    norm_num [Real.exp_zero]

/-- Claim C4 (amended) witness: `gC4w` satisfies the hypotheses and the
gradient equations hold for its reverse walk with output `0`, seed `1` and
scores `[0,0,0]`. -/
theorem C4_forwardGrad_equations_witness :
    (gC4w.WF ∧ gC4w.Acyclic ∧
        (∀ n < gC4w.numNodes, gC4w.numOut n = 0 → gC4w.accept n = true)) ∧
      ((∀ a < gC4w.numArcs,
          (forwardGrad gC4w 0 1 [0, 0, 0]).1.getD a 0
            = (forwardGrad gC4w 0 1 [0, 0, 0]).2.getD (gC4w.downNode a) 0
              * Real.exp (gC4w.weight a + [(0 : ℝ), 0, 0].getD (gC4w.upNode a) 0
                  - [(0 : ℝ), 0, 0].getD (gC4w.downNode a) 0))
        ∧ (∀ n < gC4w.numNodes,
            (forwardGrad gC4w 0 1 [0, 0, 0]).2.getD n 0
              = (if gC4w.accept n = true
                  then 1 * Real.exp ([(0 : ℝ), 0, 0].getD n 0 - 0) else 0)
                + ((gC4w.outArcs n).map
                    fun a => (forwardGrad gC4w 0 1 [0, 0, 0]).1.getD a 0).sum)) := by
  have hWF : gC4w.WF := by decide
  have hacy : gC4w.Acyclic := gC4w.acyclic_of_increasing (by decide)
  have hsink : ∀ n < gC4w.numNodes, gC4w.numOut n = 0 → gC4w.accept n = true := by decide
  exact ⟨⟨hWF, hacy, hsink⟩, C4_forwardGrad_equations gC4w [0, 0, 0] 0 1 hWF hacy hsink⟩

end Gtn
